import Mathlib

/-!
# s3-hash-checker: multipart checksum reconciliation

A shallow embedding of `src/main.go` (`getHash`, `compareMultipartS3Local`) and
theorems about the verdicts it prints.

Modelling conventions.

* The two library routines the program calls, `crypto/sha256` and
  `base64.StdEncoding.DecodeString`, are parameters `sha256` and `decodeString`
  of every definition; every general theorem holds for all of them.
  A `hash.Hash` value is modelled by the list of bytes written to it since
  `sha256.New()`, and `h.Sum(nil)` by `sha256` of that list.
* The constant `partByteSize` is the parameter `P` of `readLoop` and
  `compareMultipartWith`; `compareMultipartS3Local` fixes it to the source's
  value 17179870.
* The local file is the list of bytes that `ReadByte` returns before it first
  fails, and the way it fails (`io.EOF` or another error).
* Go slices of pointers become lists of options; indexing out of range and
  dereferencing `nil` are run-time panics, recorded as the outcome of the run.
* A run yields the lines printed, in order, and how the function ended.  The
  part line and the overall line also record the computed digest that was
  compared (the local `sum`, and `getHash(appendedHash)`).
* `count` is a natural number (the source's `int` does not overflow for any
  file that can exist).
* For two calls in sequence the variables of the function are kept in a store
  (`Vars`) that outlives a call: `callOn` runs lines 75-140 on a store and
  yields the store it leaves, `twoCalls` runs the second call on it.
-/

namespace S3HashChecker

/-- Go `error` values that occur in `compareMultipartS3Local`. -/
inductive GoError where
  /-- The error of `os.Open`. -/
  | openFailed (msg : String)
  /-- An error of `ReadByte` other than `io.EOF`. -/
  | readFailed (msg : String)
  /-- The error of `base64.StdEncoding.DecodeString` (offset of the bad input byte). -/
  | corruptInput (offset : Nat)
  /-- The value of `errors.New(msg)`. -/
  | errorsNew (msg : String)
  deriving DecidableEq, Repr

/-- The run-time panics the function can raise. -/
inductive Panic where
  /-- The index of `partsDetails[partIndex]` is out of range. -/
  | indexOutOfRange
  /-- The dereference of a nil `*string`. -/
  | nilDereference
  deriving DecidableEq, Repr

/-- How a call of `compareMultipartS3Local` ends. -/
inductive Outcome where
  /-- The call `return nil`. -/
  | nil
  /-- The call `return err` with a non-nil error. -/
  | error (e : GoError)
  /-- The call does not return: the goroutine panics. -/
  | panic (p : Panic)
  deriving DecidableEq, Repr

/-- The fields of `types.ObjectPart` (pointers are options). -/
structure ObjectPart where
  ChecksumSHA256 : Option String
  PartNumber : Option Int
  Size : Option Int
  deriving DecidableEq, Repr

/-- A line printed by the function. -/
inductive Event where
  /-- Line 91, `fmt.Println(err)`. -/
  | println (err : GoError)
  /-- Line 118, `Part <number> [<✓ or ✗>]: <checksum>`; `sum` is the digest compared. -/
  | part (number : Int) (matched : Bool) (checksum : String) (sum : List UInt8)
  /-- Line 135, `All [<✓ or ✗>]: <checksum>`; `sum` is the digest compared. -/
  | all (matched : Bool) (checksum : String) (sum : List UInt8)
  deriving DecidableEq, Repr

/-- The result of a call: the lines printed and the way the call ended. -/
structure Run where
  out : List Event
  ret : Outcome
  deriving DecidableEq, Repr

/-- The local file as `bufio.Reader.ReadByte` presents it: `bytes` are returned one
at a time, then the read fails, with `io.EOF` (`failure = none`) or another error. -/
structure LocalFile where
  bytes : List UInt8
  failure : Option GoError
  deriving DecidableEq, Repr

/-- The source's constant `partByteSize`. -/
def partByteSize : Nat := 17179870

section Program

variable (sha256 : List UInt8 → List UInt8)
variable (decodeString : String → Except GoError (List UInt8))

/-- The function `getHash`: a fresh hash, one `Write` of `input`, then `Sum(nil)`. -/
def getHash (input : List UInt8) : List UInt8 :=
  sha256 input

/-- The expression `partsDetails[partIndex]` with Go's bounds check. -/
def indexPart (partsDetails : List ObjectPart) (partIndex : Int) : Option ObjectPart :=
  if partIndex < 0 then none else partsDetails[partIndex.toNat]?

/-- Lines 100-103: the zero-based part index at iteration `count`. -/
def partIndexAt (P count : Nat) (isEOF : Bool) : Int :=
  let partIndex : Int := (count : Int) / (P : Int) - 1
  if count % P != 0 && isEOF then partIndex + 1 else partIndex

/-- Lines 105-121: digest the current part, compare it with the expected checksum, print the
part line and extend `appendedHash`.  Yields the line and the new `appendedHash`, or the way
the function ends here. -/
def checkPart (partsDetails : List ObjectPart) (partIndex : Int) (h appendedHash : List UInt8) :
    Except Outcome (Event × List UInt8) :=
  let sum := sha256 h
  match indexPart partsDetails partIndex with
  | none => .error (.panic .indexOutOfRange)
  | some part =>
    match part.ChecksumSHA256 with
    | none => .error (.panic .nilDereference)
    | some checksum =>
      match decodeString checksum with
      | .error err => .error (.error err)
      | .ok b => .ok (.part (partIndex + 1) (decide (sum = b)) checksum sum, appendedHash ++ sum)

/-- Lines 125-136: the overall comparison made once the read has returned `io.EOF`. -/
def finish (overallChecksum : Option String) (appendedHash : List UInt8) : Run :=
  match overallChecksum with
  | none => ⟨[], .panic .nilDereference⟩
  | some checksum =>
    match decodeString checksum with
    | .error err => ⟨[], .error err⟩
    | .ok overall =>
      ⟨[.all (decide (getHash sha256 appendedHash = overall)) checksum (getHash sha256 appendedHash)],
        .nil⟩

/-- Lines 86-140: the read loop, by recursion on the bytes still to be read.  `count`, `h` and
`appendedHash` are the values of the variables when the iteration starts. -/
def readLoop (P : Nat) (partsDetails : List ObjectPart) (overallChecksum : Option String)
    (failure : Option GoError) : List UInt8 → Nat → List UInt8 → List UInt8 → Run
  | [], count, h, appendedHash =>
    let count := count + 1
    match failure with
    | some err => ⟨[.println err], .error (.errorsNew "an error occured")⟩
    | none =>
      match checkPart sha256 decodeString partsDetails (partIndexAt P count true) h appendedHash with
      | .error o => ⟨[], o⟩
      | .ok (line, appendedHash) =>
        let r := finish sha256 decodeString overallChecksum appendedHash
        ⟨line :: r.out, r.ret⟩
  | curr :: rest, count, h, appendedHash =>
    let count := count + 1
    let h := h ++ [curr]
    if count % P = 0 then
      match checkPart sha256 decodeString partsDetails (partIndexAt P count false) h appendedHash with
      | .error o => ⟨[], o⟩
      | .ok (line, appendedHash) =>
        let r := readLoop P partsDetails overallChecksum failure rest count [] appendedHash
        ⟨line :: r.out, r.ret⟩
    else
      readLoop P partsDetails overallChecksum failure rest count h appendedHash

/-- The function `compareMultipartS3Local` for part size `P`; `file` is the result of
`os.Open(filename)` together with what the opened file then yields. -/
def compareMultipartWith (P : Nat) (partsDetails : List ObjectPart)
    (overallChecksum : Option String) (file : Except GoError LocalFile) : Run :=
  match file with
  | .error err => ⟨[], .error err⟩
  | .ok f => readLoop sha256 decodeString P partsDetails overallChecksum f.failure f.bytes 0 [] []

/-- The function `compareMultipartS3Local`, with the source's part size. -/
def compareMultipartS3Local (partsDetails : List ObjectPart) (overallChecksum : Option String)
    (file : Except GoError LocalFile) : Run :=
  compareMultipartWith sha256 decodeString partByteSize partsDetails overallChecksum file

/-! ### Calls in sequence

The variables of the function as a store that outlives the call, so that a second call of the
function finds what the first one left: the model in which state could carry over from one run
to the next. -/

/-- The variables of `compareMultipartS3Local` that the loop reads and writes; `br` is what the
reader has still to yield. -/
structure Vars where
  count : Nat
  h : List UInt8
  appendedHash : List UInt8
  br : List UInt8
  deriving DecidableEq, Repr

/-- Lines 86-140 once more, as `readLoop`, together with the values of the variables when the
function ends. -/
def loopVars (P : Nat) (partsDetails : List ObjectPart) (overallChecksum : Option String)
    (failure : Option GoError) : List UInt8 → Nat → List UInt8 → List UInt8 → Run × Vars
  | [], count, h, appendedHash =>
    let count := count + 1
    match failure with
    | some err =>
      (⟨[.println err], .error (.errorsNew "an error occured")⟩, ⟨count, h, appendedHash, []⟩)
    | none =>
      match checkPart sha256 decodeString partsDetails (partIndexAt P count true) h
          appendedHash with
      | .error o => (⟨[], o⟩, ⟨count, h, appendedHash, []⟩)
      | .ok (line, app) =>
        let r := finish sha256 decodeString overallChecksum app
        (⟨line :: r.out, r.ret⟩, ⟨count, [], app, []⟩)
  | curr :: rest, count, h, appendedHash =>
    let count := count + 1
    let h := h ++ [curr]
    if count % P = 0 then
      match checkPart sha256 decodeString partsDetails (partIndexAt P count false) h
          appendedHash with
      | .error o => (⟨[], o⟩, ⟨count, h, appendedHash, rest⟩)
      | .ok (line, app) =>
        let r := loopVars P partsDetails overallChecksum failure rest count [] app
        (⟨line :: r.1.out, r.1.ret⟩, r.2)
    else
      loopVars P partsDetails overallChecksum failure rest count h appendedHash

/-- The loop on a store: what it reads of the reader, `count`, `h` and `appendedHash` is what
the store holds. -/
def loopOn (P : Nat) (partsDetails : List ObjectPart) (overallChecksum : Option String)
    (failure : Option GoError) (v : Vars) : Run × Vars :=
  loopVars sha256 decodeString P partsDetails overallChecksum failure v.br v.count v.h
    v.appendedHash

/-- Lines 80-85, the assignments before the loop, in the order of the source: `h :=
sha256.New()`, `br := bufio.NewReader(f)`, `appendedHash := []byte{}`, `count := 0`. -/
def prologue (f : LocalFile) (v : Vars) : Vars :=
  let v := { v with h := [] }
  let v := { v with br := f.bytes }
  let v := { v with appendedHash := [] }
  { v with count := 0 }

/-- A call of the function on a store.  When `os.Open` fails the function returns at line 77,
before any of the assignments. -/
def callOn (P : Nat) (partsDetails : List ObjectPart) (overallChecksum : Option String)
    (file : Except GoError LocalFile) (v : Vars) : Run × Vars :=
  match file with
  | .error err => (⟨[], .error err⟩, v)
  | .ok f => loopOn sha256 decodeString P partsDetails overallChecksum f.failure (prologue f v)

/-- Two calls, one after the other, with the same arguments on the same file: the second call
starts on the store that the first one left. -/
def twoCalls (P : Nat) (partsDetails : List ObjectPart) (overallChecksum : Option String)
    (file : Except GoError LocalFile) (v : Vars) : Run × Run :=
  let first := callOn sha256 decodeString P partsDetails overallChecksum file v
  let second := callOn sha256 decodeString P partsDetails overallChecksum file first.2
  (first.1, second.1)

end Program

/-! ## Reference implementations of the two library routines

Used only to instantiate the parameters `sha256` and `decodeString` at concrete inputs. -/

deriving instance DecidableEq for Except

namespace Sha256

/-- The round constants of SHA-256 (FIPS 180-4, section 4.2.2). -/
def K : List Nat := [
  0x428a2f98, 0x71374491, 0xb5c0fbcf, 0xe9b5dba5, 0x3956c25b, 0x59f111f1, 0x923f82a4, 0xab1c5ed5,
  0xd807aa98, 0x12835b01, 0x243185be, 0x550c7dc3, 0x72be5d74, 0x80deb1fe, 0x9bdc06a7, 0xc19bf174,
  0xe49b69c1, 0xefbe4786, 0x0fc19dc6, 0x240ca1cc, 0x2de92c6f, 0x4a7484aa, 0x5cb0a9dc, 0x76f988da,
  0x983e5152, 0xa831c66d, 0xb00327c8, 0xbf597fc7, 0xc6e00bf3, 0xd5a79147, 0x06ca6351, 0x14292967,
  0x27b70a85, 0x2e1b2138, 0x4d2c6dfc, 0x53380d13, 0x650a7354, 0x766a0abb, 0x81c2c92e, 0x92722c85,
  0xa2bfe8a1, 0xa81a664b, 0xc24b8b70, 0xc76c51a3, 0xd192e819, 0xd6990624, 0xf40e3585, 0x106aa070,
  0x19a4c116, 0x1e376c08, 0x2748774c, 0x34b0bcb5, 0x391c0cb3, 0x4ed8aa4a, 0x5b9cca4f, 0x682e6ff3,
  0x748f82ee, 0x78a5636f, 0x84c87814, 0x8cc70208, 0x90befffa, 0xa4506ceb, 0xbef9a3f7, 0xc67178f2]

/-- Truncation to 32 bits. -/
def w32 (x : Nat) : Nat := x % 4294967296

/-- Rotation of a 32-bit word to the right. -/
def rotr (x n : Nat) : Nat := w32 ((x >>> n) ||| (x <<< (32 - n)))

/-- The padded message: `0x80`, zeros up to 56 modulo 64, the bit length on 8 bytes. -/
def pad (msg : List Nat) : List Nat :=
  let l := msg.length
  let k := (119 - l % 64) % 64
  msg ++ [0x80] ++ List.replicate k 0 ++
    (List.range 8).map (fun i => ((8 * l) >>> (8 * (7 - i))) % 256)

/-- The big-endian value of a list of bytes. -/
def word (b : List Nat) : Nat :=
  b.foldl (fun a x => a * 256 + x) 0

/-- The first `n` big-endian 32-bit words of a list of bytes. -/
def toWords : Nat → List Nat → List Nat
  | 0, _ => []
  | n + 1, bs => word (bs.take 4) :: toWords n (bs.drop 4)

/-- The message schedule, extended by `n` words; the list is kept latest word first. -/
def schedule : Nat → List Nat → List Nat
  | 0, w => w
  | n + 1, w =>
    let g (i : Nat) := w.getD (i - 1) 0
    let w15 := g 15
    let w2 := g 2
    let s0 := rotr w15 7 ^^^ rotr w15 18 ^^^ (w15 >>> 3)
    let s1 := rotr w2 17 ^^^ rotr w2 19 ^^^ (w2 >>> 10)
    schedule n (w32 (g 16 + s0 + g 7 + s1) :: w)

/-- The eight working variables. -/
structure St where
  a : Nat
  b : Nat
  c : Nat
  d : Nat
  e : Nat
  f : Nat
  g : Nat
  h : Nat

/-- One round of the compression function. -/
def round (s : St) (k w : Nat) : St :=
  let S1 := rotr s.e 6 ^^^ rotr s.e 11 ^^^ rotr s.e 25
  let ch := (s.e &&& s.f) ^^^ ((4294967295 - s.e) &&& s.g)
  let t1 := w32 (s.h + S1 + ch + k + w)
  let S0 := rotr s.a 2 ^^^ rotr s.a 13 ^^^ rotr s.a 22
  let maj := (s.a &&& s.b) ^^^ (s.a &&& s.c) ^^^ (s.b &&& s.c)
  let t2 := w32 (S0 + maj)
  ⟨w32 (t1 + t2), s.a, s.b, s.c, w32 (s.d + t1), s.e, s.f, s.g⟩

/-- The rounds, one per constant and schedule word. -/
def rounds : St → List Nat → List Nat → St
  | s, k :: ks, w :: ws => rounds (round s k w) ks ws
  | s, _, _ => s

/-- The compression of one 64-byte block. -/
def compress (s : St) (block : List Nat) : St :=
  let w := (schedule 48 (toWords 16 block).reverse).reverse
  let t := rounds s K w
  ⟨w32 (s.a + t.a), w32 (s.b + t.b), w32 (s.c + t.c), w32 (s.d + t.d),
   w32 (s.e + t.e), w32 (s.f + t.f), w32 (s.g + t.g), w32 (s.h + t.h)⟩

/-- The compression of `n` consecutive blocks. -/
def blocks : Nat → St → List Nat → St
  | 0, s, _ => s
  | n + 1, s, bs => blocks n (compress s (bs.take 64)) (bs.drop 64)

/-- The four bytes of a 32-bit word, big-endian. -/
def be32 (x : Nat) : List Nat := [x >>> 24 % 256, x >>> 16 % 256, x >>> 8 % 256, x % 256]

/-- SHA-256 of a list of byte values. -/
def sumNat (msg : List Nat) : List Nat :=
  let p := pad msg
  let s := blocks (p.length / 64)
    ⟨0x6a09e667, 0xbb67ae85, 0x3c6ef372, 0xa54ff53a, 0x510e527f, 0x9b05688c, 0x1f83d9ab,
      0x5be0cd19⟩ p
  be32 s.a ++ be32 s.b ++ be32 s.c ++ be32 s.d ++ be32 s.e ++ be32 s.f ++ be32 s.g ++ be32 s.h

/-- SHA-256 (FIPS 180-4): the 32-byte digest of a byte sequence. -/
def sum256 (msg : List UInt8) : List UInt8 :=
  (sumNat (msg.map UInt8.toNat)).map UInt8.ofNat

end Sha256

namespace Base64

/-- The value of a character of the standard alphabet `A-Z a-z 0-9 + /`. -/
def decodeMap (c : Char) : Option Nat :=
  let n := c.toNat
  if 65 ≤ n ∧ n ≤ 90 then some (n - 65)
  else if 97 ≤ n ∧ n ≤ 122 then some (n - 71)
  else if 48 ≤ n ∧ n ≤ 57 then some (n + 4)
  else if n = 43 then some 62
  else if n = 47 then some 63
  else none

/-- Carriage return and line feed, which the decoder skips. -/
def isNewline (c : Char) : Bool := c.toNat = 10 || c.toNat = 13

/-- Skip newlines; `si` is the offset of the head of the list. -/
def skipNewlines : List Char → Nat → List Char × Nat
  | [], si => ([], si)
  | c :: rest, si => if isNewline c then skipNewlines rest (si + 1) else (c :: rest, si)

/-- The decoding loop of Go's `encoding/base64` for `StdEncoding` (padded, not strict): `si` is
the offset of the head of the input, `j` the number of characters of the current quantum
already read, `val` their value, `dst` the bytes decoded so far, `len` the length of the whole
input.  Offsets count characters; they are byte offsets up to the first non-ASCII character,
where decoding fails. -/
def decodeLoop (len : Nat) :
    List Char → Nat → Nat → Nat → List UInt8 → Except GoError (List UInt8)
  | [], si, j, _, dst => if j = 0 then .ok dst else .error (.corruptInput (si - j))
  | c :: rest, si, j, val, dst =>
    match decodeMap c with
    | some v =>
      if j = 3 then
        let val := val * 64 + v
        decodeLoop len rest (si + 1) 0 0
          (dst ++ [UInt8.ofNat (val / 65536 % 256), UInt8.ofNat (val / 256 % 256),
            UInt8.ofNat (val % 256)])
      else decodeLoop len rest (si + 1) (j + 1) (val * 64 + v) dst
    | none =>
      if isNewline c then decodeLoop len rest (si + 1) j val dst
      else if c.toNat ≠ 61 then .error (.corruptInput si)
      else if j < 2 then .error (.corruptInput si)
      else if j = 2 then
        match skipNewlines rest (si + 1) with
        | ([], _) => .error (.corruptInput len)
        | (c2 :: rest2, si2) =>
          if c2.toNat ≠ 61 then .error (.corruptInput (si2 - 1))
          else
            match skipNewlines rest2 (si2 + 1) with
            | ([], _) => .ok (dst ++ [UInt8.ofNat (val / 16 % 256)])
            | (_ :: _, si3) => .error (.corruptInput si3)
      else
        match skipNewlines rest (si + 1) with
        | ([], _) => .ok (dst ++ [UInt8.ofNat (val / 1024 % 256), UInt8.ofNat (val / 4 % 256)])
        | (_ :: _, si3) => .error (.corruptInput si3)

/-- The function `base64.StdEncoding.DecodeString`. -/
def decodeString (s : String) : Except GoError (List UInt8) :=
  decodeLoop s.data.length s.data 0 0 0 []

end Base64

/-- The function `compareMultipartS3Local` with SHA-256 and standard base64 in place of the
parameters. -/
def run (partsDetails : List ObjectPart) (overallChecksum : Option String)
    (file : Except GoError LocalFile) : Run :=
  compareMultipartS3Local Sha256.sum256 Base64.decodeString partsDetails overallChecksum file

/-- The same for part size `P`. -/
def runWith (P : Nat) (partsDetails : List ObjectPart) (overallChecksum : Option String)
    (file : Except GoError LocalFile) : Run :=
  compareMultipartWith Sha256.sum256 Base64.decodeString P partsDetails overallChecksum file

/-! ## Vocabulary of the statements -/

/-- The digests of the part lines of an output, in order. -/
def partSums : List Event → List (List UInt8)
  | [] => []
  | .part _ _ _ sum :: rest => sum :: partSums rest
  | _ :: rest => partSums rest

/-- The part numbers of the part lines of an output, in order. -/
def partNumbers : List Event → List Int
  | [] => []
  | .part number _ _ _ :: rest => number :: partNumbers rest
  | _ :: rest => partNumbers rest

/-- The verdicts of the part lines of an output, in order. -/
def partVerdicts : List Event → List Bool
  | [] => []
  | .part _ matched _ _ :: rest => matched :: partVerdicts rest
  | _ :: rest => partVerdicts rest

/-- The overall lines of an output, in order. -/
def overallLines : List Event → List Event
  | [] => []
  | .all matched checksum sum :: rest => .all matched checksum sum :: overallLines rest
  | _ :: rest => overallLines rest

/-- Entry `k` (zero-based) of the parts list exists, has a checksum, and the checksum
decodes. -/
def partDecodes (decodeString : String → Except GoError (List UInt8))
    (partsDetails : List ObjectPart) (k : Nat) : Bool :=
  match partsDetails[k]? with
  | none => false
  | some part =>
    match part.ChecksumSHA256 with
    | none => false
    | some checksum =>
      match decodeString checksum with
      | .error _ => false
      | .ok _ => true

/-- Entry `k` (zero-based) of the parts list exists and has a checksum. -/
def partHasChecksum (partsDetails : List ObjectPart) (k : Nat) : Bool :=
  match partsDetails[k]? with
  | none => false
  | some part => part.ChecksumSHA256.isSome

/-- The number of times the loop reaches the part check on a file: once per `P` bytes read,
and once more when the read ends with `io.EOF`. -/
def windowsReached (P : Nat) (f : LocalFile) : Nat :=
  f.bytes.length / P + (match f.failure with | none => 1 | some _ => 0)

/-! ## Sample inputs -/

/-- Scenario A of the specification for part size 2: a file of five bytes. -/
def scenarioAFile : LocalFile := ⟨[1, 2, 3, 4, 5], none⟩

/-- The parts list of Scenario A: the base64 SHA-256 digests of `[1, 2]`, `[3, 4]`, `[5]`. -/
def scenarioAParts : List ObjectPart :=
  [⟨some "oShx/uIQ+4YZKR6uoZRYHL0lMeSyN1nSJfaAaSP2MiI=", some 1, some 2⟩,
   ⟨some "DOOUC+vysipdIQjs8MNooFQcfjxFcD+FQJIbTq/IKUc=", some 2, some 2⟩,
   ⟨some "53uamunjCw29tvUQomTvneeBUB17a5KuiesFnFq3Q9s=", some 3, some 1⟩]

/-- The whole-object checksum of Scenario A: the digest of the three part digests. -/
def scenarioAOverall : Option String := some "r/zYqjSWGSR62h4N0kIC3uTZcS+isOhSFyFKLcMFBRw="

/-- The parts list of an object of 17179870 zero bytes, uploaded in one part. -/
def onePartZeros : List ObjectPart :=
  [⟨some "B0LMMRec9CTvvlLCmzI/KY5TY7+7FdL1YOPMnLoVHgQ=", some 1, some 17179870⟩]

/-- The whole-object checksum of the object of 17179870 zero bytes. -/
def onePartZerosOverall : Option String := some "AUioT6u+Rea4DLERXrUv2UX/GL//gr+pt/FnBQb2psQ="

/-- The parts list of an object of 17179871 zero bytes: a full part and a part of one byte. -/
def twoPartZeros : List ObjectPart :=
  [⟨some "B0LMMRec9CTvvlLCmzI/KY5TY7+7FdL1YOPMnLoVHgQ=", some 1, some 17179870⟩,
   ⟨some "bjQLnP+zepicpUTmu3gKLHiQHT+zNzh2hRGjBhevoB0=", some 2, some 1⟩]

/-- The whole-object checksum of the object of 17179871 zero bytes. -/
def twoPartZerosOverall : Option String := some "6s03BczAUSgRB/QcmULeotpzqX/R5Ade3jKcLCVvzpw="

/-! ## Windows of a file

The `k`-th window of a file (zero-based) is the byte range `[k * P, min ((k + 1) * P, n))`. -/

/-- The bytes of `bytes` at offsets `[k * P, min ((k + 1) * P, n))`. -/
def window (P : Nat) (bytes : List UInt8) (k : Nat) : List UInt8 :=
  (bytes.drop (k * P)).take P

/-- The first `m` windows of `P` bytes, cut from the front of `bytes`. -/
def fullWindows (P : Nat) : Nat → List UInt8 → List (List UInt8)
  | 0, _ => []
  | m + 1, bytes => bytes.take P :: fullWindows P m (bytes.drop P)

section Reference

variable (sha256 : List UInt8 → List UInt8)
variable (decodeString : String → Except GoError (List UInt8))

/-- What the loop does once fewer than `P` bytes `rest` remain and `k` parts are done. -/
def atEnd (partsDetails : List ObjectPart) (overallChecksum : Option String)
    (failure : Option GoError) (rest : List UInt8) (k : Nat) (appendedHash : List UInt8) : Run :=
  match failure with
  | some err => ⟨[.println err], .error (.errorsNew "an error occured")⟩
  | none =>
    match checkPart sha256 decodeString partsDetails (k : Int) rest appendedHash with
    | .error o => ⟨[], o⟩
    | .ok (line, appendedHash) =>
      let r := finish sha256 decodeString overallChecksum appendedHash
      ⟨line :: r.out, r.ret⟩

/-- The part checks of a list of windows, the first one against part `k`, then `cont`. -/
def runParts (partsDetails : List ObjectPart) :
    Nat → List (List UInt8) → List UInt8 → (Nat → List UInt8 → Run) → Run
  | k, [], appendedHash, cont => cont k appendedHash
  | k, w :: ws, appendedHash, cont =>
    match checkPart sha256 decodeString partsDetails (k : Int) w appendedHash with
    | .error o => ⟨[], o⟩
    | .ok (line, appendedHash) =>
      let r := runParts partsDetails (k + 1) ws appendedHash cont
      ⟨line :: r.out, r.ret⟩

/-- The windows on which the loop reaches the part check: the full windows and, when the read
ends with `io.EOF`, the bytes after the last full window. -/
def windowsOf (P : Nat) (f : LocalFile) : List (List UInt8) :=
  fullWindows P (f.bytes.length / P) f.bytes ++
    (match f.failure with
      | none => [f.bytes.drop (f.bytes.length / P * P)]
      | some _ => [])

/-- What the loop does after the last part check. -/
def endOf (overallChecksum : Option String) (failure : Option GoError) (_k : Nat)
    (appendedHash : List UInt8) : Run :=
  match failure with
  | none => finish sha256 decodeString overallChecksum appendedHash
  | some err => ⟨[.println err], .error (.errorsNew "an error occured")⟩

/-- The verdict of a line is the comparison of its digest with the decoded checksum of the
part with that number, or of the whole object. -/
def VerdictExact (partsDetails : List ObjectPart) (overallChecksum : Option String) :
    Event → Prop
  | .println _ => True
  | .part number matched checksum sum =>
    ∃ part b, indexPart partsDetails (number - 1) = some part ∧
      part.ChecksumSHA256 = some checksum ∧ decodeString checksum = .ok b ∧
      (matched = true ↔ sum = b)
  | .all matched checksum sum =>
    overallChecksum = some checksum ∧
      ∃ b, decodeString checksum = .ok b ∧ (matched = true ↔ sum = b)

/-- The invariant of the loop on the rest of a run that starts with `appendedHash`: every
verdict is exact, an overall line carries the hash of `appendedHash` followed by the digests of
the part lines, and a run that returns nil has printed an overall line. -/
def RunInv (partsDetails : List ObjectPart) (overallChecksum : Option String)
    (appendedHash : List UInt8) (r : Run) : Prop :=
  (∀ e, e ∈ r.out → VerdictExact decodeString partsDetails overallChecksum e) ∧
  (∀ matched checksum sum, Event.all matched checksum sum ∈ r.out →
    sum = getHash sha256 (appendedHash ++ (partSums r.out).flatten)) ∧
  (r.ret = .nil → ∃ matched checksum sum, Event.all matched checksum sum ∈ r.out)

end Reference

/-! ## The loop, window by window -/

section Loop

variable (sha256 : List UInt8 → List UInt8)
variable (decodeString : String → Except GoError (List UInt8))

theorem partIndexAt_boundary (P count : Nat) (hP : 0 < P) (h : count % P = 0) (hc : 0 < count)
    (isEOF : Bool) : partIndexAt P count isEOF = ((count / P - 1 : Nat) : Int) := by
  have h1 : 1 ≤ count / P := by
    rcases Nat.dvd_of_mod_eq_zero h with ⟨c, rfl⟩
    rw [Nat.mul_div_cancel_left _ hP]
    rcases c with _ | c
    · simp at hc
    · omega
  simp only [partIndexAt, h]
  simp
  omega

theorem partIndexAt_eof (P count : Nat) (h : count % P ≠ 0) :
    partIndexAt P count true = ((count / P : Nat) : Int) := by
  simp [partIndexAt, h]

/-- Bytes that do not complete a part are only written to the hash. -/
theorem readLoop_within (P : Nat) (partsDetails : List ObjectPart) (overallChecksum : Option String)
    (failure : Option GoError) (w rest : List UInt8) :
    ∀ (count : Nat) (h appendedHash : List UInt8), count % P + w.length < P →
      readLoop sha256 decodeString P partsDetails overallChecksum failure (w ++ rest) count h
          appendedHash
        = readLoop sha256 decodeString P partsDetails overallChecksum failure rest
            (count + w.length) (h ++ w) appendedHash := by
  induction w with
  | nil => intro count h appendedHash _; simp
  | cons b w ih =>
    intro count h appendedHash hlt
    simp only [List.length_cons] at hlt
    have h1 : (count + 1) % P = count % P + 1 := by
      rw [Nat.add_mod]
      have : 1 % P = 1 := Nat.mod_eq_of_lt (by omega)
      rw [this, Nat.mod_eq_of_lt (by omega)]
    have h2 : (count + 1) % P ≠ 0 := by omega
    have step : readLoop sha256 decodeString P partsDetails overallChecksum failure
        (b :: (w ++ rest)) count h appendedHash
        = readLoop sha256 decodeString P partsDetails overallChecksum failure (w ++ rest)
            (count + 1) (h ++ [b]) appendedHash := by
      simp only [readLoop, h2, if_false]
    rw [List.cons_append, step, ih (count + 1) (h ++ [b]) appendedHash (by omega)]
    simp [Nat.add_assoc, Nat.add_comm 1]

/-- A byte that completes a part triggers the part check with index `count / P`. -/
theorem readLoop_full (P : Nat) (hP : 0 < P) (partsDetails : List ObjectPart)
    (overallChecksum : Option String) (failure : Option GoError) (w rest : List UInt8)
    (count : Nat) (appendedHash : List UInt8) (hc : count % P = 0) (hw : w.length = P) :
    readLoop sha256 decodeString P partsDetails overallChecksum failure (w ++ rest) count []
        appendedHash
      = match checkPart sha256 decodeString partsDetails ((count / P : Nat) : Int) w
          appendedHash with
        | .error o => ⟨[], o⟩
        | .ok (line, appendedHash) =>
          ⟨line :: (readLoop sha256 decodeString P partsDetails overallChecksum failure rest
              (count + P) [] appendedHash).out,
            (readLoop sha256 decodeString P partsDetails overallChecksum failure rest
              (count + P) [] appendedHash).ret⟩ := by
  rcases List.eq_nil_or_concat w with rfl | ⟨w1, b, rfl⟩
  · have h0 : ([] : List UInt8).length = 0 := rfl
    omega
  · rw [List.concat_eq_append] at hw ⊢
    simp only [List.length_append, List.length_singleton] at hw
    rw [List.append_assoc, readLoop_within sha256 decodeString P partsDetails overallChecksum
      failure w1 ([b] ++ rest) count [] appendedHash (by omega)]
    have e1 : count + w1.length + 1 = count + P := by omega
    have e2 : (count + P) % P = 0 := by simp [Nat.add_mod, hc]
    have e3 : partIndexAt P (count + P) false = ((count / P : Nat) : Int) := by
      have e4 : (count + P) / P - 1 = count / P := by
        rw [Nat.add_div_right _ hP]
        exact Nat.succ_sub_one _
      rw [partIndexAt_boundary P (count + P) hP e2 (by omega) false, e4]
    simp only [List.singleton_append, List.nil_append, readLoop, e1, e2, if_true, e3]
    rfl

/-- The last iteration, after fewer than `P` bytes since the last part boundary. -/
theorem readLoop_last (P : Nat) (hP : 0 < P) (partsDetails : List ObjectPart)
    (overallChecksum : Option String) (failure : Option GoError) (w : List UInt8)
    (count : Nat) (appendedHash : List UInt8) (hc : count % P = 0) (hw : w.length < P) :
    readLoop sha256 decodeString P partsDetails overallChecksum failure w count [] appendedHash
      = atEnd sha256 decodeString partsDetails overallChecksum failure w (count / P)
          appendedHash := by
  have h0 := readLoop_within sha256 decodeString P partsDetails overallChecksum failure w []
    count [] appendedHash (by omega)
  rw [List.append_nil] at h0
  rw [h0]
  have e3 : partIndexAt P (count + w.length + 1) true = ((count / P : Nat) : Int) := by
    rcases Nat.dvd_of_mod_eq_zero hc with ⟨c, rfl⟩
    rw [Nat.mul_div_cancel_left _ hP]
    by_cases hb : (P * c + w.length + 1) % P = 0
    · rw [partIndexAt_boundary P _ hP hb (by omega) true]
      congr 1
      have h1 : w.length + 1 = P := by
        have h2 : (P * c + (w.length + 1)) % P = 0 := by rw [← Nat.add_assoc]; exact hb
        rw [Nat.mul_add_mod] at h2
        by_contra hne
        rw [Nat.mod_eq_of_lt (by omega)] at h2
        omega
      have h3 : P * c + w.length + 1 = P * (c + 1) := by rw [Nat.mul_add]; omega
      rw [h3, Nat.mul_div_cancel_left _ hP]
      omega
    · rw [partIndexAt_eof P _ hb]
      congr 1
      have h2 : (P * c + (w.length + 1)) % P ≠ 0 := by rw [← Nat.add_assoc]; exact hb
      rw [Nat.mul_add_mod] at h2
      have h4 : w.length + 1 < P := by
        by_contra hne
        have : w.length + 1 = P := by omega
        rw [this, Nat.mod_self] at h2
        exact h2 rfl
      rw [Nat.add_assoc, Nat.mul_add_div hP, Nat.div_eq_of_lt h4]
      omega
  cases failure with
  | some err => simp [readLoop, atEnd]
  | none => simp only [readLoop, atEnd, e3, List.nil_append]

theorem fullWindows_length (P : Nat) : ∀ (m : Nat) (bytes : List UInt8),
    (fullWindows P m bytes).length = m := by
  intro m
  induction m with
  | zero => intro bytes; rfl
  | succ m ih => intro bytes; simp [fullWindows, ih]

theorem fullWindows_get (P : Nat) : ∀ (m : Nat) (bytes : List UInt8) (i : Nat), i < m →
    (fullWindows P m bytes)[i]? = some (window P bytes i) := by
  intro m
  induction m with
  | zero => intro bytes i hi; omega
  | succ m ih =>
    intro bytes i hi
    rcases i with _ | i
    · simp [fullWindows, window]
    · simp only [fullWindows, List.getElem?_cons_succ]
      rw [ih (bytes.drop P) i (by omega)]
      simp [window, List.drop_drop, Nat.add_mul, Nat.add_comm]

/-- The loop, started on a part boundary after `k` parts, checks the full windows one after
the other and ends with `atEnd` on the remaining bytes. -/
theorem readLoop_eq_runParts (P : Nat) (hP : 0 < P) (partsDetails : List ObjectPart)
    (overallChecksum : Option String) (failure : Option GoError) :
    ∀ (m : Nat) (bytes : List UInt8) (k : Nat) (appendedHash : List UInt8),
      bytes.length / P = m →
      readLoop sha256 decodeString P partsDetails overallChecksum failure bytes (k * P) []
          appendedHash
        = runParts sha256 decodeString partsDetails k (fullWindows P m bytes) appendedHash
            (fun j app => atEnd sha256 decodeString partsDetails overallChecksum failure
              (bytes.drop (m * P)) j app) := by
  intro m
  induction m with
  | zero =>
    intro bytes k appendedHash hm
    have hlt : bytes.length < P := (Nat.div_eq_zero_iff hP).mp hm
    rw [readLoop_last sha256 decodeString P hP partsDetails overallChecksum failure bytes
      (k * P) appendedHash (Nat.mul_mod_left k P) hlt]
    simp [fullWindows, runParts, Nat.mul_div_cancel _ hP]
  | succ m ih =>
    intro bytes k appendedHash hm
    have hge : P ≤ bytes.length := by
      by_contra hlt
      rw [Nat.div_eq_of_lt (by omega)] at hm
      omega
    have hsplit : bytes = bytes.take P ++ bytes.drop P := (List.take_append_drop P bytes).symm
    have hlen : (bytes.take P).length = P := by simp [List.length_take, hge]
    have hrest : (bytes.drop P).length / P = m := by
      rw [List.length_drop]
      have : bytes.length = (bytes.length - P) + P := by omega
      rw [this, Nat.add_div_right _ hP] at hm
      omega
    conv_lhs => rw [hsplit]
    rw [readLoop_full sha256 decodeString P hP partsDetails overallChecksum failure
      (bytes.take P) (bytes.drop P) (k * P) appendedHash (Nat.mul_mod_left k P) hlen]
    have e1 : k * P + P = (k + 1) * P := by rw [Nat.add_mul, Nat.one_mul]
    simp only [fullWindows, runParts, Nat.mul_div_cancel _ hP, e1]
    cases hcp : checkPart sha256 decodeString partsDetails (k : Int) (bytes.take P)
        appendedHash with
    | error o => rfl
    | ok v =>
      obtain ⟨line, app⟩ := v
      simp only
      rw [ih (bytes.drop P) (k + 1) app hrest]
      simp [List.drop_drop, Nat.add_mul, Nat.add_comm]

theorem runParts_append (partsDetails : List ObjectPart) (cont : Nat → List UInt8 → Run) :
    ∀ (ws1 ws2 : List (List UInt8)) (k : Nat) (appendedHash : List UInt8),
      runParts sha256 decodeString partsDetails k (ws1 ++ ws2) appendedHash cont
        = runParts sha256 decodeString partsDetails k ws1 appendedHash
            (fun j app => runParts sha256 decodeString partsDetails j ws2 app cont) := by
  intro ws1
  induction ws1 with
  | nil => intro ws2 k appendedHash; simp [runParts]
  | cons w ws1 ih =>
    intro ws2 k appendedHash
    have ih2 := ih ws2 (k + 1)
    simp only [List.cons_append, runParts]
    cases checkPart sha256 decodeString partsDetails (k : Int) w appendedHash with
    | error o => rfl
    | ok v =>
      obtain ⟨line, app⟩ := v
      simp only
      rw [show ws1.append ws2 = ws1 ++ ws2 from rfl, ih2 app]

theorem windowsOf_length (P : Nat) (f : LocalFile) :
    (windowsOf P f).length = windowsReached P f := by
  unfold windowsOf windowsReached
  rw [List.length_append, fullWindows_length]
  cases f.failure <;> rfl

theorem windowsOf_get (P : Nat) (hP : 0 < P) (f : LocalFile) (i : Nat)
    (hi : i < windowsReached P f) : (windowsOf P f)[i]? = some (window P f.bytes i) := by
  unfold windowsOf
  by_cases h1 : i < f.bytes.length / P
  · rw [List.getElem?_append_left (by rw [fullWindows_length]; exact h1)]
    exact fullWindows_get P _ _ i h1
  · rw [List.getElem?_append_right (by rw [fullWindows_length]; omega), fullWindows_length]
    unfold windowsReached at hi
    cases hf : f.failure with
    | some err => simp only [hf] at hi; omega
    | none =>
      simp only [hf] at hi
      have hi2 : i = f.bytes.length / P := by omega
      subst hi2
      have hlt : (f.bytes.drop (f.bytes.length / P * P)).length < P := by
        rw [List.length_drop]
        have h3 := Nat.div_add_mod f.bytes.length P
        have h4 := Nat.mod_lt f.bytes.length hP
        rw [Nat.mul_comm] at h3
        omega
      simp only [Nat.sub_self, List.getElem?_cons_zero, window]
      rw [List.take_of_length_le (by omega)]

/-- The whole call as a sequence of part checks on the windows of the file. -/
theorem compare_eq_runParts (P : Nat) (hP : 0 < P) (partsDetails : List ObjectPart)
    (overallChecksum : Option String) (f : LocalFile) :
    compareMultipartWith sha256 decodeString P partsDetails overallChecksum (.ok f)
      = runParts sha256 decodeString partsDetails 0 (windowsOf P f) []
          (endOf sha256 decodeString overallChecksum f.failure) := by
  have h := readLoop_eq_runParts sha256 decodeString P hP partsDetails overallChecksum f.failure
    (f.bytes.length / P) f.bytes 0 [] rfl
  rw [Nat.zero_mul] at h
  unfold compareMultipartWith
  simp only
  rw [h, windowsOf, runParts_append]
  congr 1
  funext j app
  cases hf : f.failure with
  | some err => simp [runParts, atEnd, endOf]
  | none =>
    simp only [runParts, atEnd, endOf]

end Loop

/-! ## Part checks -/

section Checks

variable (sha256 : List UInt8 → List UInt8)
variable (decodeString : String → Except GoError (List UInt8))

theorem indexPart_natCast (partsDetails : List ObjectPart) (k : Nat) :
    indexPart partsDetails (k : Int) = partsDetails[k]? := by
  simp [indexPart]

/-- A part check that succeeds found a part with a checksum that decodes, printed the part
line for it, and appended the digest. -/
theorem checkPart_inv (partsDetails : List ObjectPart) (partIndex : Int)
    (h appendedHash : List UInt8) (line : Event) (app : List UInt8)
    (hc : checkPart sha256 decodeString partsDetails partIndex h appendedHash = .ok (line, app)) :
    ∃ part checksum b, indexPart partsDetails partIndex = some part ∧
      part.ChecksumSHA256 = some checksum ∧ decodeString checksum = .ok b ∧
      line = .part (partIndex + 1) (decide (sha256 h = b)) checksum (sha256 h) ∧
      app = appendedHash ++ sha256 h := by
  unfold checkPart at hc
  cases hi : indexPart partsDetails partIndex with
  | none => simp [hi] at hc
  | some part =>
    cases hs : part.ChecksumSHA256 with
    | none => simp [hi, hs] at hc
    | some checksum =>
      cases hd : decodeString checksum with
      | error err => simp [hi, hs, hd] at hc
      | ok b =>
        simp only [hi, hs, hd, Except.ok.injEq, Prod.mk.injEq] at hc
        exact ⟨part, checksum, b, rfl, hs, hd, hc.1.symm, hc.2.symm⟩

theorem checkPart_error_ne_nil (partsDetails : List ObjectPart) (partIndex : Int)
    (h appendedHash : List UInt8) (o : Outcome)
    (hc : checkPart sha256 decodeString partsDetails partIndex h appendedHash = .error o) :
    o ≠ .nil := by
  unfold checkPart at hc
  cases hi : indexPart partsDetails partIndex with
  | none => simp only [hi, Except.error.injEq] at hc; rw [← hc]; simp
  | some part =>
    cases hs : part.ChecksumSHA256 with
    | none => simp only [hi, hs, Except.error.injEq] at hc; rw [← hc]; simp
    | some checksum =>
      cases hd : decodeString checksum with
      | error err => simp only [hi, hs, hd, Except.error.injEq] at hc; rw [← hc]; simp
      | ok b => simp [hi, hs, hd] at hc

theorem checkPart_of_decodes (partsDetails : List ObjectPart) (k : Nat)
    (h appendedHash : List UInt8) (hk : partDecodes decodeString partsDetails k = true) :
    ∃ checksum b, decodeString checksum = .ok b ∧
      checkPart sha256 decodeString partsDetails (k : Int) h appendedHash
        = .ok (.part ((k : Int) + 1) (decide (sha256 h = b)) checksum (sha256 h),
            appendedHash ++ sha256 h) := by
  unfold partDecodes at hk
  unfold checkPart
  rw [indexPart_natCast]
  cases hi : partsDetails[k]? with
  | none => simp [hi] at hk
  | some part =>
    cases hs : part.ChecksumSHA256 with
    | none => simp [hi, hs] at hk
    | some checksum =>
      cases hd : decodeString checksum with
      | error err => simp [hi, hs, hd] at hk
      | ok b => exact ⟨checksum, b, hd, by simp [hs, hd]⟩

theorem checkPart_out_of_range (partsDetails : List ObjectPart) (k : Nat)
    (h appendedHash : List UInt8) (hk : partsDetails.length ≤ k) :
    checkPart sha256 decodeString partsDetails (k : Int) h appendedHash
      = .error (.panic .indexOutOfRange) := by
  unfold checkPart
  rw [indexPart_natCast, List.getElem?_eq_none hk]

/-- A part line is printed only for an index inside the parts list. -/
theorem checkPart_number_le (partsDetails : List ObjectPart) (k : Nat)
    (h appendedHash : List UInt8) (line : Event) (app : List UInt8)
    (hc : checkPart sha256 decodeString partsDetails (k : Int) h appendedHash = .ok (line, app)) :
    k < partsDetails.length := by
  obtain ⟨part, checksum, b, hi, _⟩ :=
    checkPart_inv sha256 decodeString partsDetails k h appendedHash line app hc
  rw [indexPart_natCast] at hi
  by_contra hlt
  rw [List.getElem?_eq_none (by omega)] at hi
  simp at hi

/-- Every line printed by a sequence of part checks is the part line of one of the windows,
or a line of the continuation, which is reached only when the parts list covers the windows. -/
theorem runParts_mem (partsDetails : List ObjectPart) (cont : Nat → List UInt8 → Run) :
    ∀ (ws : List (List UInt8)) (k : Nat) (appendedHash : List UInt8) (e : Event),
      e ∈ (runParts sha256 decodeString partsDetails k ws appendedHash cont).out →
      (∃ i w checksum b, ws[i]? = some w ∧ k + i < partsDetails.length ∧
          decodeString checksum = .ok b ∧
          e = .part (((k + i : Nat) : Int) + 1) (decide (sha256 w = b)) checksum (sha256 w) ∧
          ∃ part, partsDetails[k + i]? = some part ∧ part.ChecksumSHA256 = some checksum) ∨
        ((ws = [] ∨ k + ws.length ≤ partsDetails.length) ∧
          e ∈ (cont (k + ws.length) (appendedHash ++ (ws.map sha256).flatten)).out) := by
  intro ws
  induction ws with
  | nil => intro k appendedHash e he; right; simpa [runParts] using he
  | cons w ws ih =>
    intro k appendedHash e he
    simp only [runParts] at he
    cases hc : checkPart sha256 decodeString partsDetails (k : Int) w appendedHash with
    | error o => simp [hc] at he
    | ok v =>
      obtain ⟨line, app⟩ := v
      have hlt := checkPart_number_le sha256 decodeString partsDetails k w appendedHash line app hc
      obtain ⟨part, checksum, b, hidx, hsum, hd, hline, happ⟩ :=
        checkPart_inv sha256 decodeString partsDetails k w appendedHash line app hc
      rw [indexPart_natCast] at hidx
      simp only [hc, List.mem_cons] at he
      rcases he with he | he
      · left
        exact ⟨0, w, checksum, b, by simp, by simpa using hlt, hd, by rw [he, hline]; simp,
          part, by simpa using hidx, hsum⟩
      · rcases ih (k + 1) app e he with ⟨i, w2, c2, b2, h1, h2, h3, h4, p2, h5, h6⟩ | ⟨h1, h2⟩
        · left
          refine ⟨i + 1, w2, c2, b2, by simpa using h1, by omega, h3, ?_, p2, ?_, h6⟩
          · rw [h4]
            congr 2
            omega
          · rw [← h5]
            congr 1
            omega
        · right
          refine ⟨Or.inr ?_, ?_⟩
          · rcases h1 with h1 | h1
            · simp only [h1, List.length_cons, List.length_nil]; omega
            · simp only [List.length_cons]; omega
          · rw [happ] at h2
            simpa [List.append_assoc, Nat.add_assoc, Nat.add_comm 1] using h2

/-- A sequence of part checks ends the way the continuation does, unless a check fails. -/
theorem runParts_ret_nil (partsDetails : List ObjectPart) (cont : Nat → List UInt8 → Run) :
    ∀ (ws : List (List UInt8)) (k : Nat) (appendedHash : List UInt8),
      (runParts sha256 decodeString partsDetails k ws appendedHash cont).ret = .nil →
      (ws = [] ∨ k + ws.length ≤ partsDetails.length) ∧
        (cont (k + ws.length) (appendedHash ++ (ws.map sha256).flatten)).ret = .nil := by
  intro ws
  induction ws with
  | nil => intro k appendedHash he; simpa [runParts] using he
  | cons w ws ih =>
    intro k appendedHash he
    simp only [runParts] at he
    cases hc : checkPart sha256 decodeString partsDetails (k : Int) w appendedHash with
    | error o =>
      simp only [hc] at he
      exact absurd he (checkPart_error_ne_nil sha256 decodeString partsDetails k w appendedHash o hc)
    | ok v =>
      obtain ⟨line, app⟩ := v
      obtain ⟨part, checksum, b, _, _, hd, hline, happ⟩ :=
        checkPart_inv sha256 decodeString partsDetails k w appendedHash line app hc
      have hlt := checkPart_number_le sha256 decodeString partsDetails k w appendedHash line app hc
      simp only [hc] at he
      obtain ⟨h1, h2⟩ := ih (k + 1) app he
      refine ⟨Or.inr ?_, ?_⟩
      · rcases h1 with h1 | h1
        · simp only [h1, List.length_cons, List.length_nil]; omega
        · simp only [List.length_cons]; omega
      · rw [happ] at h2
        simpa [List.append_assoc, Nat.add_assoc, Nat.add_comm 1] using h2

theorem partSums_append (a b : List Event) : partSums (a ++ b) = partSums a ++ partSums b := by
  induction a with
  | nil => rfl
  | cons e a ih => cases e <;> simp [partSums, ih]

theorem partNumbers_append (a b : List Event) :
    partNumbers (a ++ b) = partNumbers a ++ partNumbers b := by
  induction a with
  | nil => rfl
  | cons e a ih => cases e <;> simp [partNumbers, ih]

theorem overallLines_append (a b : List Event) :
    overallLines (a ++ b) = overallLines a ++ overallLines b := by
  induction a with
  | nil => rfl
  | cons e a ih => cases e <;> simp [overallLines, ih]

theorem mem_overallLines (e : Event) (l : List Event) :
    e ∈ overallLines l ↔ e ∈ l ∧ ∃ matched checksum sum, e = .all matched checksum sum := by
  induction l with
  | nil => simp [overallLines]
  | cons x l ih =>
    cases x with
    | println err =>
      simp only [overallLines, ih, List.mem_cons]
      constructor
      · rintro ⟨h1, h2⟩; exact ⟨Or.inr h1, h2⟩
      · rintro ⟨h1 | h1, m, c, s, h2⟩
        · rw [h2] at h1; cases h1
        · exact ⟨h1, m, c, s, h2⟩
    | part number matched checksum sum =>
      simp only [overallLines, ih, List.mem_cons]
      constructor
      · rintro ⟨h1, h2⟩; exact ⟨Or.inr h1, h2⟩
      · rintro ⟨h1 | h1, m, c, s, h2⟩
        · rw [h2] at h1; cases h1
        · exact ⟨h1, m, c, s, h2⟩
    | all matched checksum sum =>
      simp only [overallLines, ih, List.mem_cons]
      constructor
      · rintro (h1 | ⟨h1, h2⟩)
        · exact ⟨Or.inl h1, matched, checksum, sum, h1⟩
        · exact ⟨Or.inr h1, h2⟩
      · rintro ⟨h1 | h1, h2⟩
        · exact Or.inl h1
        · exact Or.inr ⟨h1, h2⟩

/-- When the parts list has a decodable checksum for each of the windows, every check prints
its part line and the continuation is reached. -/
theorem runParts_ok (partsDetails : List ObjectPart) (cont : Nat → List UInt8 → Run) :
    ∀ (ws : List (List UInt8)) (k : Nat) (appendedHash : List UInt8),
      (∀ i, i < ws.length → partDecodes decodeString partsDetails (k + i) = true) →
      ∃ lines, (runParts sha256 decodeString partsDetails k ws appendedHash cont).out
            = lines ++ (cont (k + ws.length) (appendedHash ++ (ws.map sha256).flatten)).out ∧
        (runParts sha256 decodeString partsDetails k ws appendedHash cont).ret
            = (cont (k + ws.length) (appendedHash ++ (ws.map sha256).flatten)).ret ∧
        lines.length = ws.length ∧
        partSums lines = ws.map sha256 ∧
        partNumbers lines = (List.range ws.length).map (fun i => ((k + i : Nat) : Int) + 1) ∧
        overallLines lines = [] := by
  intro ws
  induction ws with
  | nil =>
    intro k appendedHash _
    exact ⟨[], by simp [runParts], by simp [runParts], rfl, rfl, rfl, rfl⟩
  | cons w ws ih =>
    intro k appendedHash hdec
    obtain ⟨checksum, b, hd, hc⟩ :=
      checkPart_of_decodes sha256 decodeString partsDetails k w appendedHash
        (by simpa using hdec 0 (by simp))
    obtain ⟨lines, h1, h2, h3, h4, h5, h6⟩ := ih (k + 1) (appendedHash ++ sha256 w)
      (fun i hi => by
        have := hdec (i + 1) (by simp only [List.length_cons]; omega)
        rwa [show k + (i + 1) = k + 1 + i by omega] at this)
    have e1 : k + 1 + ws.length = k + (w :: ws).length := by
      simp only [List.length_cons]; omega
    have e2 : appendedHash ++ sha256 w ++ (ws.map sha256).flatten
        = appendedHash ++ ((w :: ws).map sha256).flatten := by
      simp [List.append_assoc]
    rw [e1, e2] at h1 h2
    refine ⟨.part ((k : Int) + 1) (decide (sha256 w = b)) checksum (sha256 w) :: lines,
      ?_, ?_, ?_, ?_, ?_, ?_⟩
    · simp only [runParts, hc, h1, List.cons_append]
    · simp only [runParts, hc, h2]
    · simp [h3]
    · simp [partSums, h4]
    · simp only [partNumbers, h5, List.length_cons, List.range_succ_eq_map, List.map_cons,
        List.map_map, Nat.add_zero]
      congr 1
      apply List.map_congr_left
      intro i _
      simp only [Function.comp, Nat.succ_eq_add_one]
      congr 2
      omega
    · simp [overallLines, h6]

end Checks

/-! ## The invariant of the loop -/

section Invariant

variable (sha256 : List UInt8 → List UInt8)
variable (decodeString : String → Except GoError (List UInt8))

theorem runInv_stop (partsDetails : List ObjectPart) (overallChecksum : Option String)
    (appendedHash : List UInt8) (o : Outcome) (ho : o ≠ .nil) :
    RunInv sha256 decodeString partsDetails overallChecksum appendedHash ⟨[], o⟩ := by
  refine ⟨?_, ?_, ?_⟩
  · intro e he; simp at he
  · intro m c s he; simp at he
  · intro h; exact absurd h ho

theorem runInv_println (partsDetails : List ObjectPart) (overallChecksum : Option String)
    (appendedHash : List UInt8) (err e2 : GoError) :
    RunInv sha256 decodeString partsDetails overallChecksum appendedHash ⟨[.println err], .error e2⟩ := by
  refine ⟨?_, ?_, ?_⟩
  · intro e he
    simp only [List.mem_singleton] at he
    rw [he]; trivial
  · intro m c s he; simp at he
  · intro h; simp at h

theorem finish_none (appendedHash : List UInt8) :
    finish sha256 decodeString none appendedHash = ⟨[], .panic .nilDereference⟩ := rfl

theorem finish_error (checksum : String) (appendedHash : List UInt8) (err : GoError)
    (hd : decodeString checksum = .error err) :
    finish sha256 decodeString (some checksum) appendedHash = ⟨[], .error err⟩ := by
  simp [finish, hd]

theorem finish_ok (checksum : String) (appendedHash overall : List UInt8)
    (hd : decodeString checksum = .ok overall) :
    finish sha256 decodeString (some checksum) appendedHash
      = ⟨[.all (decide (getHash sha256 appendedHash = overall)) checksum
            (getHash sha256 appendedHash)], .nil⟩ := by
  simp [finish, hd]

theorem runInv_finish (partsDetails : List ObjectPart) (overallChecksum : Option String)
    (appendedHash : List UInt8) :
    RunInv sha256 decodeString partsDetails overallChecksum appendedHash
      (finish sha256 decodeString overallChecksum appendedHash) := by
  cases overallChecksum with
  | none => exact runInv_stop sha256 decodeString partsDetails _ appendedHash _ (by simp)
  | some checksum =>
    cases hd : decodeString checksum with
    | error err =>
      rw [finish_error sha256 decodeString checksum appendedHash err hd]
      exact runInv_stop sha256 decodeString partsDetails _ appendedHash _ (by simp)
    | ok overall =>
      rw [finish_ok sha256 decodeString checksum appendedHash overall hd]
      refine ⟨?_, ?_, ?_⟩
      · intro e he
        simp only [List.mem_singleton] at he
        rw [he]
        exact ⟨rfl, overall, hd, by simp⟩
      · intro m c s he
        simp only [List.mem_singleton, Event.all.injEq] at he
        simp [he.2.2, partSums]
      · intro _
        exact ⟨_, _, _, List.mem_singleton.mpr rfl⟩

/-- A successful part check in front of a run keeps the invariant. -/
theorem runInv_cons (partsDetails : List ObjectPart) (overallChecksum : Option String)
    (partIndex : Int) (h appendedHash : List UInt8) (line : Event) (app : List UInt8) (r : Run)
    (hc : checkPart sha256 decodeString partsDetails partIndex h appendedHash = .ok (line, app))
    (hr : RunInv sha256 decodeString partsDetails overallChecksum app r) :
    RunInv sha256 decodeString partsDetails overallChecksum appendedHash ⟨line :: r.out, r.ret⟩ := by
  obtain ⟨part, checksum, b, hidx, hsum, hd, hline, happ⟩ :=
    checkPart_inv sha256 decodeString partsDetails partIndex h appendedHash line app hc
  obtain ⟨h1, h2, h3⟩ := hr
  subst hline happ
  refine ⟨?_, ?_, ?_⟩
  · intro e he
    simp only [List.mem_cons] at he
    rcases he with he | he
    · rw [he]
      exact ⟨part, b, by rw [Int.add_sub_cancel]; exact hidx, hsum, hd, by simp⟩
    · exact h1 e he
  · intro m c s he
    simp only [List.mem_cons] at he
    rcases he with he | he
    · cases he
    · rw [h2 m c s he]
      simp [partSums, List.append_assoc]
  · intro hret
    obtain ⟨m, c, s, hm⟩ := h3 hret
    exact ⟨m, c, s, List.mem_cons_of_mem _ hm⟩

theorem readLoop_inv (P : Nat) (partsDetails : List ObjectPart) (overallChecksum : Option String)
    (failure : Option GoError) :
    ∀ (bytes : List UInt8) (count : Nat) (h appendedHash : List UInt8),
      RunInv sha256 decodeString partsDetails overallChecksum appendedHash
        (readLoop sha256 decodeString P partsDetails overallChecksum failure bytes count h
          appendedHash) := by
  intro bytes
  induction bytes with
  | nil =>
    intro count h appendedHash
    cases failure with
    | some err => simpa [readLoop] using runInv_println sha256 decodeString partsDetails overallChecksum appendedHash err _
    | none =>
      simp only [readLoop]
      cases hc : checkPart sha256 decodeString partsDetails (partIndexAt P (count + 1) true) h
          appendedHash with
      | error o =>
        exact runInv_stop sha256 decodeString partsDetails _ appendedHash o
          (checkPart_error_ne_nil sha256 decodeString partsDetails _ h appendedHash o hc)
      | ok v =>
        obtain ⟨line, app⟩ := v
        exact runInv_cons sha256 decodeString partsDetails overallChecksum _ h appendedHash line app _ hc
          (runInv_finish sha256 decodeString partsDetails overallChecksum app)
  | cons curr rest ih =>
    intro count h appendedHash
    simp only [readLoop]
    by_cases hb : (count + 1) % P = 0
    · simp only [hb, if_true]
      cases hc : checkPart sha256 decodeString partsDetails (partIndexAt P (count + 1) false)
          (h ++ [curr]) appendedHash with
      | error o =>
        exact runInv_stop sha256 decodeString partsDetails _ appendedHash o
          (checkPart_error_ne_nil sha256 decodeString partsDetails _ _ appendedHash o hc)
      | ok v =>
        obtain ⟨line, app⟩ := v
        exact runInv_cons sha256 decodeString partsDetails overallChecksum _ _ appendedHash line app _ hc
          (ih (count + 1) [] app)
    · simp only [hb, if_false]
      exact ih (count + 1) (h ++ [curr]) appendedHash

end Invariant

/-! ## Windows and their lengths -/

theorem windowsOf_eq_map (P : Nat) (hP : 0 < P) (f : LocalFile) :
    windowsOf P f = (List.range (windowsReached P f)).map (window P f.bytes) := by
  apply List.ext_getElem?
  intro i
  by_cases hi : i < windowsReached P f
  · rw [windowsOf_get P hP f i hi]
    simp [hi]
  · rw [List.getElem?_eq_none (by rw [windowsOf_length]; omega),
      List.getElem?_eq_none (by simp only [List.length_map, List.length_range]; omega)]

theorem window_length_full (P : Nat) (bytes : List UInt8) (k : Nat)
    (hk : k < bytes.length / P) : (window P bytes k).length = P := by
  have h1 : (k + 1) * P ≤ bytes.length :=
    Nat.le_trans (Nat.mul_le_mul_right P hk) (Nat.div_mul_le_self _ _)
  rw [Nat.add_mul, Nat.one_mul] at h1
  simp only [window, List.length_take, List.length_drop]
  omega

theorem window_length_last (P : Nat) (hP : 0 < P) (bytes : List UInt8) :
    (window P bytes (bytes.length / P)).length = bytes.length % P := by
  have h3 := Nat.div_add_mod bytes.length P
  have h4 := Nat.mod_lt bytes.length hP
  rw [Nat.mul_comm] at h3
  simp only [window, List.length_take, List.length_drop]
  omega

section Ends

variable (sha256 : List UInt8 → List UInt8)
variable (decodeString : String → Except GoError (List UInt8))

/-- After the last part check no part line is printed. -/
theorem endOf_no_part (overallChecksum : Option String) (failure : Option GoError) (k : Nat)
    (appendedHash : List UInt8) (number : Int) (matched : Bool) (checksum : String)
    (sum : List UInt8) :
    Event.part number matched checksum sum
      ∉ (endOf sha256 decodeString overallChecksum failure k appendedHash).out := by
  cases failure with
  | some err => simp [endOf]
  | none =>
    cases overallChecksum with
    | none => simp [endOf, finish_none]
    | some c =>
      cases hd : decodeString c with
      | error err => simp [endOf, finish_error sha256 decodeString c appendedHash err hd]
      | ok b => simp [endOf, finish_ok sha256 decodeString c appendedHash b hd]

theorem partSums_endOf (overallChecksum : Option String) (failure : Option GoError) (k : Nat)
    (appendedHash : List UInt8) :
    partSums (endOf sha256 decodeString overallChecksum failure k appendedHash).out = [] := by
  cases failure with
  | some err => simp [endOf, partSums]
  | none =>
    cases overallChecksum with
    | none => simp [endOf, finish_none, partSums]
    | some c =>
      cases hd : decodeString c with
      | error err =>
        simp [endOf, finish_error sha256 decodeString c appendedHash err hd, partSums]
      | ok b => simp [endOf, finish_ok sha256 decodeString c appendedHash b hd, partSums]

theorem partNumbers_endOf (overallChecksum : Option String) (failure : Option GoError) (k : Nat)
    (appendedHash : List UInt8) :
    partNumbers (endOf sha256 decodeString overallChecksum failure k appendedHash).out = [] := by
  cases failure with
  | some err => simp [endOf, partNumbers]
  | none =>
    cases overallChecksum with
    | none => simp [endOf, finish_none, partNumbers]
    | some c =>
      cases hd : decodeString c with
      | error err =>
        simp [endOf, finish_error sha256 decodeString c appendedHash err hd, partNumbers]
      | ok b => simp [endOf, finish_ok sha256 decodeString c appendedHash b hd, partNumbers]

/-- After the last part check of a read that failed, nothing but the error is printed. -/
theorem endOf_failure (overallChecksum : Option String) (err : GoError) (k : Nat)
    (appendedHash : List UInt8) :
    endOf sha256 decodeString overallChecksum (some err) k appendedHash
      = ⟨[.println err], .error (.errorsNew "an error occured")⟩ := rfl

/-- A failing part check ends the run without a line. -/
theorem runParts_cons_error (partsDetails : List ObjectPart) (cont : Nat → List UInt8 → Run)
    (k : Nat) (w : List UInt8) (ws : List (List UInt8)) (appendedHash : List UInt8)
    (o : Outcome)
    (hc : checkPart sha256 decodeString partsDetails (k : Int) w appendedHash = .error o) :
    runParts sha256 decodeString partsDetails k (w :: ws) appendedHash cont = ⟨[], o⟩ := by
  simp only [runParts, hc]

/-- The first `j` part checks succeed and the next one fails with `o`: the run prints the
`j` part lines and ends with `o`. -/
theorem runParts_stops (partsDetails : List ObjectPart) (cont : Nat → List UInt8 → Run)
    (ws : List (List UInt8)) (j : Nat) (hj : j < ws.length) (o : Outcome)
    (hdec : ∀ i, i < j → partDecodes decodeString partsDetails i = true)
    (hfail : ∀ (w app : List UInt8),
      checkPart sha256 decodeString partsDetails (j : Int) w app = .error o) :
    (runParts sha256 decodeString partsDetails 0 ws [] cont).ret = o ∧
    (runParts sha256 decodeString partsDetails 0 ws [] cont).out.length = j ∧
    partNumbers (runParts sha256 decodeString partsDetails 0 ws [] cont).out
      = (List.range j).map (fun (i : Nat) => (i : Int) + 1) ∧
    partSums (runParts sha256 decodeString partsDetails 0 ws [] cont).out
      = (ws.take j).map sha256 := by
  have hsplit : ws = ws.take j ++ ws.drop j := (List.take_append_drop j ws).symm
  have hlen : (ws.take j).length = j := by rw [List.length_take]; omega
  obtain ⟨w, rest, hdrop⟩ : ∃ w rest, ws.drop j = w :: rest := by
    cases hd : ws.drop j with
    | nil =>
      have := congrArg List.length hd
      rw [List.length_drop] at this
      simp only [List.length_nil] at this
      omega
    | cons w rest => exact ⟨w, rest, rfl⟩
  obtain ⟨lines, h1, h2, h3, h4, h5, _⟩ :=
    runParts_ok sha256 decodeString partsDetails
      (fun i app => runParts sha256 decodeString partsDetails i (ws.drop j) app cont)
      (ws.take j) 0 []
      (fun i hi => by rw [Nat.zero_add]; exact hdec i (by omega))
  have hrun : runParts sha256 decodeString partsDetails 0 ws [] cont
      = runParts sha256 decodeString partsDetails 0 (ws.take j) []
          (fun i app => runParts sha256 decodeString partsDetails i (ws.drop j) app cont) := by
    conv_lhs => rw [hsplit]
    exact runParts_append sha256 decodeString partsDetails cont (ws.take j) (ws.drop j) 0 []
  have hstop : ∀ app, runParts sha256 decodeString partsDetails (0 + (ws.take j).length)
      (ws.drop j) app cont = ⟨[], o⟩ := by
    intro app
    rw [hdrop, hlen, Nat.zero_add]
    exact runParts_cons_error sha256 decodeString partsDetails cont j w rest app o (hfail w app)
  simp only [hstop, List.append_nil] at h1 h2
  rw [hrun, h1, h2]
  refine ⟨rfl, by rw [h3, hlen], ?_, h4⟩
  rw [h5, hlen]
  simp only [Nat.zero_add]

/-- A read to the end of the file against a parts list that has a decodable checksum for
every window: one part line per window, then the overall comparison. -/
theorem compare_of_decodes (P : Nat) (hP : 0 < P) (partsDetails : List ObjectPart)
    (overallChecksum : Option String) (bytes : List UInt8)
    (hparts : ∀ k, k ≤ bytes.length / P → partDecodes decodeString partsDetails k = true) :
    ∃ lines,
      (compareMultipartWith sha256 decodeString P partsDetails overallChecksum
          (.ok ⟨bytes, none⟩)).out
        = lines ++ (finish sha256 decodeString overallChecksum
            ((List.range (bytes.length / P + 1)).map
              (fun k => sha256 (window P bytes k))).flatten).out ∧
      (compareMultipartWith sha256 decodeString P partsDetails overallChecksum
          (.ok ⟨bytes, none⟩)).ret
        = (finish sha256 decodeString overallChecksum
            ((List.range (bytes.length / P + 1)).map
              (fun k => sha256 (window P bytes k))).flatten).ret ∧
      lines.length = bytes.length / P + 1 ∧
      partSums lines
        = (List.range (bytes.length / P + 1)).map (fun k => sha256 (window P bytes k)) ∧
      partNumbers lines
        = (List.range (bytes.length / P + 1)).map (fun (k : Nat) => (k : Int) + 1) ∧
      overallLines lines = [] := by
  have hw : windowsReached P ⟨bytes, none⟩ = bytes.length / P + 1 := rfl
  obtain ⟨lines, h1, h2, h3, h4, h5, h6⟩ :=
    runParts_ok sha256 decodeString partsDetails
      (endOf sha256 decodeString overallChecksum none) (windowsOf P ⟨bytes, none⟩) 0 []
      (fun i hi => by
        rw [windowsOf_length, hw] at hi
        rw [Nat.zero_add]
        exact hparts i (by omega))
  have hmap : (windowsOf P ⟨bytes, none⟩).map sha256
      = (List.range (bytes.length / P + 1)).map (fun k => sha256 (window P bytes k)) := by
    rw [windowsOf_eq_map P hP, hw, List.map_map]
    rfl
  rw [hmap] at h1 h2 h4
  rw [windowsOf_length, hw] at h3 h5
  simp only [Nat.zero_add, List.nil_append] at h1 h2 h5
  rw [compare_eq_runParts sha256 decodeString P hP partsDetails overallChecksum ⟨bytes, none⟩]
  exact ⟨lines, h1, h2, h3, h4, h5, h6⟩

/-- A parts list shorter than the windows reached, with decodable checksums: one part line per
entry, then the panic on the index out of range. -/
theorem compare_of_short_list (P : Nat) (hP : 0 < P) (partsDetails : List ObjectPart)
    (overallChecksum : Option String) (f : LocalFile)
    (hmore : partsDetails.length < windowsReached P f)
    (hdec : ∀ k, k < partsDetails.length → partDecodes decodeString partsDetails k = true) :
    (compareMultipartWith sha256 decodeString P partsDetails overallChecksum (.ok f)).ret
        = .panic .indexOutOfRange ∧
    partNumbers
        (compareMultipartWith sha256 decodeString P partsDetails overallChecksum (.ok f)).out
      = (List.range partsDetails.length).map (fun (k : Nat) => (k : Int) + 1) ∧
    (compareMultipartWith sha256 decodeString P partsDetails overallChecksum
        (.ok f)).out.length = partsDetails.length := by
  rw [compare_eq_runParts sha256 decodeString P hP partsDetails overallChecksum f]
  obtain ⟨h1, h2, h3, _⟩ := runParts_stops sha256 decodeString partsDetails
    (endOf sha256 decodeString overallChecksum f.failure) (windowsOf P f) partsDetails.length
    (by rw [windowsOf_length]; exact hmore) (.panic .indexOutOfRange) hdec
    (fun w app => checkPart_out_of_range sha256 decodeString partsDetails _ w app
      (Nat.le_refl _))
  exact ⟨h1, h3, h2⟩

theorem checkPart_take (partsDetails : List ObjectPart) (m k : Nat) (hk : k < m)
    (h appendedHash : List UInt8) :
    checkPart sha256 decodeString (partsDetails.take m) (k : Int) h appendedHash
      = checkPart sha256 decodeString partsDetails (k : Int) h appendedHash := by
  unfold checkPart
  rw [indexPart_natCast, indexPart_natCast, List.getElem?_take_of_lt hk]

/-- Part checks read only the entries of the parts list up to the last window. -/
theorem runParts_take (partsDetails : List ObjectPart) (cont : Nat → List UInt8 → Run)
    (m : Nat) :
    ∀ (ws : List (List UInt8)) (k : Nat) (appendedHash : List UInt8), k + ws.length ≤ m →
      runParts sha256 decodeString (partsDetails.take m) k ws appendedHash cont
        = runParts sha256 decodeString partsDetails k ws appendedHash cont := by
  intro ws
  induction ws with
  | nil => intro k appendedHash _; rfl
  | cons w ws ih =>
    intro k appendedHash hk
    simp only [List.length_cons] at hk
    simp only [runParts]
    rw [checkPart_take sha256 decodeString partsDetails m k (by omega) w appendedHash]
    cases checkPart sha256 decodeString partsDetails (k : Int) w appendedHash with
    | error o => rfl
    | ok v =>
      obtain ⟨line, app⟩ := v
      simp only
      rw [ih (k + 1) app (by omega)]

theorem checkPart_decode_error (partsDetails : List ObjectPart) (k : Nat) (part : ObjectPart)
    (checksum : String) (err : GoError) (h appendedHash : List UInt8)
    (hpart : partsDetails[k]? = some part) (hsum : part.ChecksumSHA256 = some checksum)
    (hd : decodeString checksum = .error err) :
    checkPart sha256 decodeString partsDetails (k : Int) h appendedHash
      = .error (.error err) := by
  unfold checkPart
  rw [indexPart_natCast, hpart]
  simp [hsum, hd]

end Ends

/-! ## Metadata derived from the file -/

section Derived

variable (sha256 : List UInt8 → List UInt8)
variable (decodeString : String → Except GoError (List UInt8))

/-- The matching run: for a file whose length is not a multiple of the part size and a parts
list and whole-object checksum derived from the file (entry `k` holds the encoded digest of
window `k`, the whole-object checksum is the encoded digest of the part digests), every part
line and the overall line are marked matched and the function returns nil. -/
theorem derived_metadata_matches (encode : List UInt8 → String)
    (henc : ∀ x, decodeString (encode x) = .ok x) (P : Nat) (hP : 0 < P)
    (partsDetails : List ObjectPart) (overallChecksum : Option String) (bytes : List UInt8)
    (_hn : bytes.length % P ≠ 0)
    (hparts : ∀ k, k ≤ bytes.length / P → ∃ part, partsDetails[k]? = some part ∧
      part.ChecksumSHA256 = some (encode (sha256 (window P bytes k))))
    (hov : overallChecksum = some (encode (getHash sha256
      ((List.range (bytes.length / P + 1)).map (fun k => sha256 (window P bytes k))).flatten))) :
    (compareMultipartWith sha256 decodeString P partsDetails overallChecksum
        (.ok ⟨bytes, none⟩)).ret = .nil ∧
    (∀ number matched checksum sum, Event.part number matched checksum sum
      ∈ (compareMultipartWith sha256 decodeString P partsDetails overallChecksum
        (.ok ⟨bytes, none⟩)).out → matched = true) ∧
    partNumbers (compareMultipartWith sha256 decodeString P partsDetails overallChecksum
        (.ok ⟨bytes, none⟩)).out
      = (List.range (bytes.length / P + 1)).map (fun (k : Nat) => (k : Int) + 1) ∧
    (compareMultipartWith sha256 decodeString P partsDetails overallChecksum
        (.ok ⟨bytes, none⟩)).out.length = bytes.length / P + 2 ∧
    ∃ checksum sum, (compareMultipartWith sha256 decodeString P partsDetails overallChecksum
        (.ok ⟨bytes, none⟩)).out.getLast? = some (.all true checksum sum) := by
  subst hov
  have hw : windowsReached P ⟨bytes, none⟩ = bytes.length / P + 1 := rfl
  have hdec : ∀ k, k ≤ bytes.length / P → partDecodes decodeString partsDetails k = true := by
    intro k hk
    obtain ⟨part, h1, h2⟩ := hparts k hk
    simp [partDecodes, h1, h2, henc]
  obtain ⟨lines, h1, h2, h3, _, h5, _⟩ := compare_of_decodes sha256 decodeString P hP
    partsDetails _ bytes hdec
  rw [finish_ok sha256 decodeString _ _ _ (henc _)] at h1 h2
  refine ⟨h2.trans rfl, ?_, ?_, ?_, ?_⟩
  · intro number matched checksum sum hmem
    rw [compare_eq_runParts sha256 decodeString P hP partsDetails _ ⟨bytes, none⟩] at hmem
    rcases runParts_mem sha256 decodeString partsDetails _ (windowsOf P ⟨bytes, none⟩) 0 [] _
        hmem with ⟨i, w, c, b, g1, _, g3, g4, part, g5, g6⟩ | ⟨_, g2⟩
    · have hi : i < windowsReached P ⟨bytes, none⟩ := by
        rw [← windowsOf_length]
        by_contra hge
        rw [List.getElem?_eq_none (by omega)] at g1
        cases g1
      rw [windowsOf_get P hP ⟨bytes, none⟩ i hi] at g1
      simp only [Option.some.injEq] at g1
      obtain ⟨part2, k1, k2⟩ := hparts i (by rw [hw] at hi; omega)
      rw [Nat.zero_add, k1] at g5
      simp only [Option.some.injEq] at g5
      subst g5
      rw [k2] at g6
      simp only [Option.some.injEq] at g6
      subst g6
      rw [henc] at g3
      simp only [Except.ok.injEq] at g3
      simp only [Event.part.injEq] at g4
      rw [g4.2.1, ← g3, ← g1]
      simp
    · exact absurd g2 (endOf_no_part sha256 decodeString _ none _ _ _ _ _ _)
  · rw [h1, partNumbers_append, h5]
    simp [partNumbers]
  · rw [h1]
    simp [h3]
  · rw [h1, decide_eq_true rfl]
    exact ⟨_, _, List.getLast?_concat _⟩

end Derived

/-! ## The claims -/

set_option maxRecDepth 100000

section Claims

variable (sha256 : List UInt8 → List UInt8)
variable (decodeString : String → Except GoError (List UInt8))

/-- Scenario A of the specification, for part size 2: three part lines and the overall line,
all marked matched, and the function returns nil. -/
theorem scenarioA_all_matched :
    runWith 2 scenarioAParts scenarioAOverall (.ok scenarioAFile)
      = ⟨[.part 1 true "oShx/uIQ+4YZKR6uoZRYHL0lMeSyN1nSJfaAaSP2MiI=" (Sha256.sum256 [1, 2]),
          .part 2 true "DOOUC+vysipdIQjs8MNooFQcfjxFcD+FQJIbTq/IKUc=" (Sha256.sum256 [3, 4]),
          .part 3 true "53uamunjCw29tvUQomTvneeBUB17a5KuiesFnFq3Q9s=" (Sha256.sum256 [5]),
          .all true "r/zYqjSWGSR62h4N0kIC3uTZcS+isOhSFyFKLcMFBRw="
            (Sha256.sum256
              (Sha256.sum256 [1, 2] ++ Sha256.sum256 [3, 4] ++ Sha256.sum256 [5]))],
        .nil⟩ := by
  decide

/-- The same file cut to four bytes, an exact multiple of the part size 2, with the two-entry
parts list derived from it: two matched part lines, then the panic on `partsDetails[2]`. -/
theorem exact_multiple_small :
    runWith 2 (scenarioAParts.take 2) (some "vtPTOoECb3vpOu+tRMWJHCf8gmWqFSeaWOKHdEt8d1M=")
        (.ok ⟨[1, 2, 3, 4], none⟩)
      = ⟨[.part 1 true "oShx/uIQ+4YZKR6uoZRYHL0lMeSyN1nSJfaAaSP2MiI=" (Sha256.sum256 [1, 2]),
          .part 2 true "DOOUC+vysipdIQjs8MNooFQcfjxFcD+FQJIbTq/IKUc=" (Sha256.sum256 [3, 4])],
        .panic .indexOutOfRange⟩ := by
  decide

/-- A file of exactly one full part against a one-entry parts list with a decodable checksum:
the line of part 1, then the panic on `partsDetails[1]`. -/
theorem one_full_part (partsDetails : List ObjectPart) (overallChecksum : Option String)
    (bytes : List UInt8) (hlen : bytes.length = partByteSize)
    (hone : partsDetails.length = 1)
    (hdec : partDecodes Base64.decodeString partsDetails 0 = true) :
    (run partsDetails overallChecksum (.ok ⟨bytes, none⟩)).ret = .panic .indexOutOfRange ∧
    partNumbers (run partsDetails overallChecksum (.ok ⟨bytes, none⟩)).out = [1] ∧
    (run partsDetails overallChecksum (.ok ⟨bytes, none⟩)).out.length = 1 := by
  have hmore : partsDetails.length < windowsReached partByteSize ⟨bytes, none⟩ := by
    simp only [windowsReached, hlen, hone]
    decide
  obtain ⟨h1, h2, h3⟩ := compare_of_short_list Sha256.sum256 Base64.decodeString partByteSize
    (by decide) partsDetails overallChecksum ⟨bytes, none⟩ hmore
    (by intro k hk; rw [hone] at hk; have : k = 0 := by omega
        subst this; exact hdec)
  unfold run compareMultipartS3Local
  rw [h1, h2, h3, hone]
  exact ⟨rfl, rfl, rfl⟩

/-- C1, at the failing input: a local file of exactly 17179870 zero bytes, one part, with the
one-entry parts list and the whole-object checksum derived from it.  After the line of part 1
the end-of-stream iteration indexes `partsDetails[1]`: the function panics, prints no overall
line and does not return nil. -/
theorem C1_exact_multiple_panics :
    (run onePartZeros onePartZerosOverall
        (.ok ⟨List.replicate partByteSize 0, none⟩)).ret = .panic .indexOutOfRange ∧
    partNumbers (run onePartZeros onePartZerosOverall
        (.ok ⟨List.replicate partByteSize 0, none⟩)).out = [1] ∧
    (run onePartZeros onePartZerosOverall
        (.ok ⟨List.replicate partByteSize 0, none⟩)).out.length = 1 :=
  one_full_part onePartZeros onePartZerosOverall (List.replicate partByteSize 0)
    (List.length_replicate _ _) rfl (by decide)

/-- A file of exactly one full part against a parts list with two decodable entries: the loop
reaches the part check twice, the second time on the empty byte range. -/
theorem one_full_part_two_entries (partsDetails : List ObjectPart)
    (overallChecksum : Option String) (bytes : List UInt8)
    (hlen : bytes.length = partByteSize)
    (hdec : ∀ k, k ≤ 1 → partDecodes Base64.decodeString partsDetails k = true) :
    partNumbers (run partsDetails overallChecksum (.ok ⟨bytes, none⟩)).out = [1, 2] ∧
    partSums (run partsDetails overallChecksum (.ok ⟨bytes, none⟩)).out
      = [Sha256.sum256 bytes, Sha256.sum256 []] := by
  have hdiv : bytes.length / partByteSize = 1 := by rw [hlen]; decide
  have hw0 : window partByteSize bytes 0 = bytes := by
    simp only [window, Nat.zero_mul, List.drop_zero]
    exact List.take_of_length_le (by omega)
  have hw1 : window partByteSize bytes 1 = [] := by
    simp only [window, Nat.one_mul]
    rw [List.drop_of_length_le (by omega)]
    rfl
  obtain ⟨lines, h1, _, _, h4, h5, _⟩ := compare_of_decodes Sha256.sum256 Base64.decodeString
    partByteSize (by decide) partsDetails overallChecksum bytes (by rw [hdiv]; exact hdec)
  have hfin : ∀ app,
      partSums (finish Sha256.sum256 Base64.decodeString overallChecksum app).out = [] ∧
      partNumbers (finish Sha256.sum256 Base64.decodeString overallChecksum app).out
        = [] := fun app =>
    ⟨partSums_endOf Sha256.sum256 Base64.decodeString overallChecksum none 0 app,
      partNumbers_endOf Sha256.sum256 Base64.decodeString overallChecksum none 0 app⟩
  rw [hdiv] at h1 h4 h5
  unfold run compareMultipartS3Local
  rw [h1, partNumbers_append, partSums_append, (hfin _).1, (hfin _).2, List.append_nil,
    List.append_nil, h4, h5]
  refine ⟨rfl, ?_⟩
  show [Sha256.sum256 (window partByteSize bytes 0),
    Sha256.sum256 (window partByteSize bytes 1)] = _
  rw [hw0, hw1]

/-- C2, at the failing input: a local file of exactly 17179870 zero bytes, so `n / P = 1`,
against the two-entry parts list of an object one byte longer.  The loop reaches the part
check twice: the part lines are numbered 1 and 2, and the digest compared on the second one is
the SHA-256 of the empty byte range. -/
theorem C2_trailing_empty_window :
    (List.replicate partByteSize (0 : UInt8)).length = 1 * partByteSize ∧
    partNumbers (run twoPartZeros twoPartZerosOverall
        (.ok ⟨List.replicate partByteSize 0, none⟩)).out = [1, 2] ∧
    partSums (run twoPartZeros twoPartZerosOverall
        (.ok ⟨List.replicate partByteSize 0, none⟩)).out
      = [Sha256.sum256 (List.replicate partByteSize 0), Sha256.sum256 []] :=
  ⟨(List.length_replicate _ _).trans (Nat.one_mul _).symm,
    one_full_part_two_entries twoPartZeros twoPartZerosOverall (List.replicate partByteSize 0)
      (List.length_replicate _ _) (by decide)⟩

/-- C3: for a file whose length `n` is not a multiple of the part size `P`, read to the end,
and a parts list whose first `n / P + 1` entries have decodable checksums, the part lines are
numbered `1, ..., n / P + 1` and carry the digests of the windows `0, ..., n / P` of the file;
the first `n / P` windows have exactly `P` bytes and the last one has `n % P` bytes, which is
more than none and fewer than `P`. -/
theorem C3_partial_last_window (P : Nat) (partsDetails : List ObjectPart)
    (overallChecksum : Option String) (bytes : List UInt8) (hP : 0 < P)
    (hn : bytes.length % P ≠ 0)
    (hparts : ∀ k, k ≤ bytes.length / P → partDecodes decodeString partsDetails k = true) :
    partSums (compareMultipartWith sha256 decodeString P partsDetails overallChecksum
        (.ok ⟨bytes, none⟩)).out
      = (List.range (bytes.length / P + 1)).map (fun k => sha256 (window P bytes k)) ∧
    partNumbers (compareMultipartWith sha256 decodeString P partsDetails overallChecksum
        (.ok ⟨bytes, none⟩)).out
      = (List.range (bytes.length / P + 1)).map (fun (k : Nat) => (k : Int) + 1) ∧
    (∀ k, k < bytes.length / P → (window P bytes k).length = P) ∧
    (window P bytes (bytes.length / P)).length = bytes.length % P ∧
    0 < bytes.length % P ∧ bytes.length % P < P := by
  obtain ⟨lines, h1, _, _, h4, h5, _⟩ := compare_of_decodes sha256 decodeString P hP
    partsDetails overallChecksum bytes hparts
  have hfin : ∀ app, partSums (finish sha256 decodeString overallChecksum app).out = [] ∧
      partNumbers (finish sha256 decodeString overallChecksum app).out = [] := fun app =>
    ⟨partSums_endOf sha256 decodeString overallChecksum none 0 app,
      partNumbers_endOf sha256 decodeString overallChecksum none 0 app⟩
  rw [h1, partSums_append, partNumbers_append, (hfin _).1, (hfin _).2, List.append_nil,
    List.append_nil]
  exact ⟨h4, h5, fun k hk => window_length_full P bytes k hk, window_length_last P hP bytes,
    by omega, Nat.mod_lt _ hP⟩

/-- Witness of C3: Scenario A, a file of five bytes with part size 2. -/
theorem C3_partial_last_window_witness :
    partSums (compareMultipartWith Sha256.sum256 Base64.decodeString 2 scenarioAParts
        scenarioAOverall (.ok ⟨[1, 2, 3, 4, 5], none⟩)).out
      = (List.range (([1, 2, 3, 4, 5] : List UInt8).length / 2 + 1)).map
          (fun k => Sha256.sum256 (window 2 [1, 2, 3, 4, 5] k)) ∧
    partNumbers (compareMultipartWith Sha256.sum256 Base64.decodeString 2 scenarioAParts
        scenarioAOverall (.ok ⟨[1, 2, 3, 4, 5], none⟩)).out
      = (List.range (([1, 2, 3, 4, 5] : List UInt8).length / 2 + 1)).map
          (fun (k : Nat) => (k : Int) + 1) ∧
    (∀ k, k < ([1, 2, 3, 4, 5] : List UInt8).length / 2 →
      (window 2 [1, 2, 3, 4, 5] k).length = 2) ∧
    (window 2 [1, 2, 3, 4, 5] (([1, 2, 3, 4, 5] : List UInt8).length / 2)).length
      = ([1, 2, 3, 4, 5] : List UInt8).length % 2 ∧
    0 < ([1, 2, 3, 4, 5] : List UInt8).length % 2 ∧
    ([1, 2, 3, 4, 5] : List UInt8).length % 2 < 2 :=
  C3_partial_last_window Sha256.sum256 Base64.decodeString 2 scenarioAParts scenarioAOverall
    [1, 2, 3, 4, 5] (by decide) (by decide) (by decide)

/-- C4: every part line that is printed, whatever the way the run ends, has a number `k + 1`
for a window `k` that the loop reached, and the digest compared on that line (and appended to
`appendedHash`) is the SHA-256 of exactly the bytes of the file at offsets
`[k * P, min ((k + 1) * P, n))`: each byte of the window once, no byte of another window, and
nothing for the end-of-stream iteration. -/
theorem C4_part_digest_of_window (P : Nat) (partsDetails : List ObjectPart)
    (overallChecksum : Option String) (f : LocalFile) (hP : 0 < P)
    (number : Int) (matched : Bool) (checksum : String) (sum : List UInt8)
    (hline : Event.part number matched checksum sum
      ∈ (compareMultipartWith sha256 decodeString P partsDetails overallChecksum (.ok f)).out) :
    ∃ k : Nat, number = (k : Int) + 1 ∧ k < windowsReached P f ∧
      sum = sha256 ((f.bytes.drop (k * P)).take P) := by
  rw [compare_eq_runParts sha256 decodeString P hP partsDetails overallChecksum f] at hline
  rcases runParts_mem sha256 decodeString partsDetails
      (endOf sha256 decodeString overallChecksum f.failure) (windowsOf P f) 0 [] _ hline with
    ⟨i, w, c, b, h1, _, _, h4, _⟩ | ⟨_, h2⟩
  · have hi : i < windowsReached P f := by
      rw [← windowsOf_length]
      by_contra hge
      rw [List.getElem?_eq_none (by omega)] at h1
      cases h1
    rw [windowsOf_get P hP f i hi] at h1
    simp only [Option.some.injEq] at h1
    simp only [Event.part.injEq, Nat.zero_add] at h4
    exact ⟨i, h4.1, hi, by rw [h4.2.2.2, ← h1]; rfl⟩
  · exact absurd h2 (endOf_no_part sha256 decodeString overallChecksum f.failure _ _ _ _ _ _)

/-- Witness of C4: the third part line of Scenario A carries the digest of the fifth byte. -/
theorem C4_part_digest_of_window_witness :
    ∃ k : Nat, (3 : Int) = (k : Int) + 1 ∧ k < windowsReached 2 scenarioAFile ∧
      Sha256.sum256 [5] = Sha256.sum256 ((scenarioAFile.bytes.drop (k * 2)).take 2) :=
  C4_part_digest_of_window Sha256.sum256 Base64.decodeString 2 scenarioAParts scenarioAOverall
    scenarioAFile (by decide) 3 true "53uamunjCw29tvUQomTvneeBUB17a5KuiesFnFq3Q9s="
    (Sha256.sum256 [5]) (by decide)

/-- C5: on every run, an overall line carries, as the digest compared with the whole-object
checksum, `getHash` of the concatenation, in order and without separators, of the digests of
the part lines printed in that run; and a run that returns nil has printed such a line. -/
theorem C5_overall_digest_of_part_digests (P : Nat) (partsDetails : List ObjectPart)
    (overallChecksum : Option String) (file : Except GoError LocalFile) :
    (∀ matched checksum sum,
      Event.all matched checksum sum
          ∈ (compareMultipartWith sha256 decodeString P partsDetails overallChecksum file).out →
        sum = getHash sha256 (partSums
          (compareMultipartWith sha256 decodeString P partsDetails overallChecksum
            file).out).flatten) ∧
    ((compareMultipartWith sha256 decodeString P partsDetails overallChecksum file).ret = .nil →
      ∃ matched checksum,
        Event.all matched checksum (getHash sha256 (partSums
          (compareMultipartWith sha256 decodeString P partsDetails overallChecksum
            file).out).flatten)
          ∈ (compareMultipartWith sha256 decodeString P partsDetails overallChecksum
            file).out) := by
  cases file with
  | error err => simp [compareMultipartWith]
  | ok f =>
    obtain ⟨_, h2, h3⟩ := readLoop_inv sha256 decodeString P partsDetails overallChecksum
      f.failure f.bytes 0 [] []
    simp only [List.nil_append] at h2
    have e : compareMultipartWith sha256 decodeString P partsDetails overallChecksum (.ok f)
        = readLoop sha256 decodeString P partsDetails overallChecksum f.failure f.bytes 0 []
            [] := rfl
    rw [e]
    refine ⟨h2, fun hret => ?_⟩
    obtain ⟨m, c, s, hm⟩ := h3 hret
    have hs := h2 m c s hm
    exact ⟨m, c, by rw [← hs]; exact hm⟩

/-- Witness of C5: the overall line of Scenario A carries the digest of the three part
digests. -/
theorem C5_overall_digest_of_part_digests_witness :
    (runWith 2 scenarioAParts scenarioAOverall (.ok scenarioAFile)).ret = .nil ∧
    Event.all true "r/zYqjSWGSR62h4N0kIC3uTZcS+isOhSFyFKLcMFBRw="
        (Sha256.sum256
          (Sha256.sum256 [1, 2] ++ Sha256.sum256 [3, 4] ++ Sha256.sum256 [5]))
      ∈ (runWith 2 scenarioAParts scenarioAOverall (.ok scenarioAFile)).out ∧
    Sha256.sum256 (Sha256.sum256 [1, 2] ++ Sha256.sum256 [3, 4] ++ Sha256.sum256 [5])
      = getHash Sha256.sum256
          (partSums (runWith 2 scenarioAParts scenarioAOverall (.ok scenarioAFile)).out).flatten :=
  ⟨by decide, by decide,
    (C5_overall_digest_of_part_digests Sha256.sum256 Base64.decodeString 2 scenarioAParts
      scenarioAOverall (.ok scenarioAFile)).1 true
      "r/zYqjSWGSR62h4N0kIC3uTZcS+isOhSFyFKLcMFBRw="
      (Sha256.sum256 (Sha256.sum256 [1, 2] ++ Sha256.sum256 [3, 4] ++ Sha256.sum256 [5]))
      (by decide)⟩

/-- C6: every verdict printed is the comparison of the computed digest with the
base64-decoded expected digest.  A part line numbered `number` shows the checksum of entry
`number - 1` of the parts list, that checksum decodes, and the line is marked matched exactly
when the computed digest equals the decoded bytes (as lists, hence also in length); the overall
line shows the whole-object checksum, which decodes, and is marked matched exactly when the
computed overall digest equals the decoded bytes. -/
theorem C6_verdict_is_byte_equality (P : Nat) (partsDetails : List ObjectPart)
    (overallChecksum : Option String) (file : Except GoError LocalFile) :
    (∀ number matched checksum sum,
      Event.part number matched checksum sum
          ∈ (compareMultipartWith sha256 decodeString P partsDetails overallChecksum file).out →
        ∃ part b, indexPart partsDetails (number - 1) = some part ∧
          part.ChecksumSHA256 = some checksum ∧ decodeString checksum = .ok b ∧
          (matched = true ↔ sum = b)) ∧
    (∀ matched checksum sum,
      Event.all matched checksum sum
          ∈ (compareMultipartWith sha256 decodeString P partsDetails overallChecksum file).out →
        overallChecksum = some checksum ∧
          ∃ b, decodeString checksum = .ok b ∧ (matched = true ↔ sum = b)) := by
  cases file with
  | error err => simp [compareMultipartWith]
  | ok f =>
    obtain ⟨h1, _, _⟩ := readLoop_inv sha256 decodeString P partsDetails overallChecksum
      f.failure f.bytes 0 [] []
    exact ⟨fun number matched checksum sum h => h1 _ h, fun matched checksum sum h => h1 _ h⟩

/-- Witness of C6: the first part line of Scenario A. -/
theorem C6_verdict_is_byte_equality_witness :
    ∃ part b, indexPart scenarioAParts ((1 : Int) - 1) = some part ∧
      part.ChecksumSHA256 = some "oShx/uIQ+4YZKR6uoZRYHL0lMeSyN1nSJfaAaSP2MiI=" ∧
      Base64.decodeString "oShx/uIQ+4YZKR6uoZRYHL0lMeSyN1nSJfaAaSP2MiI=" = .ok b ∧
      (true = true ↔ Sha256.sum256 [1, 2] = b) :=
  (C6_verdict_is_byte_equality Sha256.sum256 Base64.decodeString 2 scenarioAParts
    scenarioAOverall (.ok scenarioAFile)).1 1 true
    "oShx/uIQ+4YZKR6uoZRYHL0lMeSyN1nSJfaAaSP2MiI=" (Sha256.sum256 [1, 2]) (by decide)

/-- C8: when the loop reaches more windows than the parts list has entries, the run fails at
the first window without an entry: it does not return nil, prints no overall line, and prints
no part line with a number above the length of the list.  When the entries of the list all
have decodable checksums the run prints exactly one part line per entry and then panics on the
index that is out of range. -/
theorem C8_window_without_part_fails (P : Nat) (partsDetails : List ObjectPart)
    (overallChecksum : Option String) (f : LocalFile) (hP : 0 < P)
    (hmore : partsDetails.length < windowsReached P f) :
    (compareMultipartWith sha256 decodeString P partsDetails overallChecksum (.ok f)).ret
      ≠ .nil ∧
    (∀ matched checksum sum, Event.all matched checksum sum
      ∉ (compareMultipartWith sha256 decodeString P partsDetails overallChecksum (.ok f)).out) ∧
    (∀ number matched checksum sum, Event.part number matched checksum sum
      ∈ (compareMultipartWith sha256 decodeString P partsDetails overallChecksum (.ok f)).out →
        number ≤ (partsDetails.length : Int)) ∧
    ((∀ k, k < partsDetails.length → partDecodes decodeString partsDetails k = true) →
      (compareMultipartWith sha256 decodeString P partsDetails overallChecksum (.ok f)).ret
        = .panic .indexOutOfRange ∧
      partNumbers
          (compareMultipartWith sha256 decodeString P partsDetails overallChecksum (.ok f)).out
        = (List.range partsDetails.length).map (fun (k : Nat) => (k : Int) + 1) ∧
      (compareMultipartWith sha256 decodeString P partsDetails overallChecksum
          (.ok f)).out.length = partsDetails.length) := by
  rw [compare_eq_runParts sha256 decodeString P hP partsDetails overallChecksum f]
  have hlen := windowsOf_length P f
  have hne : windowsOf P f ≠ [] := by
    intro h0
    rw [h0] at hlen
    simp only [List.length_nil] at hlen
    omega
  refine ⟨?_, ?_, ?_, ?_⟩
  · intro hret
    obtain ⟨h1, _⟩ := runParts_ret_nil sha256 decodeString partsDetails
      (endOf sha256 decodeString overallChecksum f.failure) (windowsOf P f) 0 [] hret
    rcases h1 with h1 | h1
    · exact hne h1
    · omega
  · intro matched checksum sum hmem
    rcases runParts_mem sha256 decodeString partsDetails
        (endOf sha256 decodeString overallChecksum f.failure) (windowsOf P f) 0 [] _ hmem with
      ⟨i, w, c, b, _, _, _, h4, _⟩ | ⟨h1, _⟩
    · cases h4
    · rcases h1 with h1 | h1
      · exact hne h1
      · omega
  · intro number matched checksum sum hmem
    rcases runParts_mem sha256 decodeString partsDetails
        (endOf sha256 decodeString overallChecksum f.failure) (windowsOf P f) 0 [] _ hmem with
      ⟨i, w, c, b, _, h2, _, h4, _⟩ | ⟨_, h2⟩
    · simp only [Event.part.injEq] at h4
      rw [h4.1]
      omega
    · exact absurd h2 (endOf_no_part sha256 decodeString overallChecksum f.failure _ _ _ _ _ _)
  · intro hdec
    have h := compare_of_short_list sha256 decodeString P hP partsDetails overallChecksum f
      hmore hdec
    rw [compare_eq_runParts sha256 decodeString P hP partsDetails overallChecksum f] at h
    exact h

/-- Witness of C8: a file of five bytes, part size 2, and only the first two parts of
Scenario A: two part lines, then the panic. -/
theorem C8_window_without_part_fails_witness :
    (runWith 2 (scenarioAParts.take 2) scenarioAOverall (.ok scenarioAFile)).ret ≠ .nil ∧
    (runWith 2 (scenarioAParts.take 2) scenarioAOverall (.ok scenarioAFile)).ret
        = .panic .indexOutOfRange ∧
    partNumbers (runWith 2 (scenarioAParts.take 2) scenarioAOverall (.ok scenarioAFile)).out
        = (List.range (scenarioAParts.take 2).length).map (fun (k : Nat) => (k : Int) + 1) ∧
    (runWith 2 (scenarioAParts.take 2) scenarioAOverall (.ok scenarioAFile)).out.length
        = (scenarioAParts.take 2).length :=
  ⟨(C8_window_without_part_fails Sha256.sum256 Base64.decodeString 2 (scenarioAParts.take 2)
      scenarioAOverall scenarioAFile (by decide) (by decide)).1,
    (C8_window_without_part_fails Sha256.sum256 Base64.decodeString 2 (scenarioAParts.take 2)
      scenarioAOverall scenarioAFile (by decide) (by decide)).2.2.2 (by decide)⟩

/-- C10: when a read fails with an error other than `io.EOF`, the run does not return nil and
prints no overall line, and every part line it has printed is for a window of `P` bytes that
was read completely before the failure: the bytes read after the last full window are neither
digested into a verdict nor compared.  When the parts reached before the failure have
decodable checksums, the function prints one part line per full window, then the read error,
and returns the error `an error occured`. -/
theorem C10_read_failure_aborts (P : Nat) (partsDetails : List ObjectPart)
    (overallChecksum : Option String) (bytes : List UInt8) (err : GoError) (hP : 0 < P) :
    (compareMultipartWith sha256 decodeString P partsDetails overallChecksum
        (.ok ⟨bytes, some err⟩)).ret ≠ .nil ∧
    (∀ matched checksum sum, Event.all matched checksum sum
      ∉ (compareMultipartWith sha256 decodeString P partsDetails overallChecksum
        (.ok ⟨bytes, some err⟩)).out) ∧
    (∀ number matched checksum sum, Event.part number matched checksum sum
      ∈ (compareMultipartWith sha256 decodeString P partsDetails overallChecksum
        (.ok ⟨bytes, some err⟩)).out → number * (P : Int) ≤ (bytes.length : Int)) ∧
    ((∀ k, k < bytes.length / P → partDecodes decodeString partsDetails k = true) →
      (compareMultipartWith sha256 decodeString P partsDetails overallChecksum
          (.ok ⟨bytes, some err⟩)).ret = .error (.errorsNew "an error occured") ∧
      (compareMultipartWith sha256 decodeString P partsDetails overallChecksum
          (.ok ⟨bytes, some err⟩)).out.getLast? = some (.println err) ∧
      partNumbers (compareMultipartWith sha256 decodeString P partsDetails overallChecksum
          (.ok ⟨bytes, some err⟩)).out
        = (List.range (bytes.length / P)).map (fun (k : Nat) => (k : Int) + 1)) := by
  rw [compare_eq_runParts sha256 decodeString P hP partsDetails overallChecksum
    ⟨bytes, some err⟩]
  have hlen : (windowsOf P ⟨bytes, some err⟩).length = bytes.length / P := by
    rw [windowsOf_length]
    simp [windowsReached]
  refine ⟨?_, ?_, ?_, ?_⟩
  · intro hret
    obtain ⟨_, h2⟩ := runParts_ret_nil sha256 decodeString partsDetails
      (endOf sha256 decodeString overallChecksum (some err)) (windowsOf P ⟨bytes, some err⟩)
      0 [] hret
    rw [endOf_failure] at h2
    cases h2
  · intro matched checksum sum hmem
    rcases runParts_mem sha256 decodeString partsDetails
        (endOf sha256 decodeString overallChecksum (some err)) (windowsOf P ⟨bytes, some err⟩)
        0 [] _ hmem with ⟨i, w, c, b, _, _, _, h4, _⟩ | ⟨_, h2⟩
    · cases h4
    · rw [endOf_failure] at h2
      simp at h2
  · intro number matched checksum sum hmem
    rcases runParts_mem sha256 decodeString partsDetails
        (endOf sha256 decodeString overallChecksum (some err)) (windowsOf P ⟨bytes, some err⟩)
        0 [] _ hmem with ⟨i, w, c, b, h1, _, _, h4, _⟩ | ⟨_, h2⟩
    · have hi : i < bytes.length / P := by
        rw [← hlen]
        by_contra hge
        rw [List.getElem?_eq_none (by omega)] at h1
        cases h1
      have h5 : (i + 1) * P ≤ bytes.length :=
        Nat.le_trans (Nat.mul_le_mul_right P hi) (Nat.div_mul_le_self _ _)
      simp only [Event.part.injEq, Nat.zero_add] at h4
      rw [h4.1]
      exact_mod_cast h5
    · exact absurd h2 (endOf_no_part sha256 decodeString overallChecksum (some err) _ _ _ _ _ _)
  · intro hdec
    obtain ⟨lines, h1, h2, _, _, h5, _⟩ :=
      runParts_ok sha256 decodeString partsDetails
        (endOf sha256 decodeString overallChecksum (some err)) (windowsOf P ⟨bytes, some err⟩)
        0 []
        (fun i hi => by rw [Nat.zero_add]; exact hdec i (by omega))
    rw [endOf_failure] at h1 h2
    rw [h1, h2]
    refine ⟨rfl, by simp, ?_⟩
    rw [partNumbers_append, h5, hlen]
    simp [partNumbers]

/-- Witness of C10: part size 2, three bytes read, then the read fails. -/
theorem C10_read_failure_aborts_witness :
    (runWith 2 scenarioAParts scenarioAOverall
        (.ok ⟨[1, 2, 3], some (.readFailed "input/output error")⟩)).ret ≠ .nil ∧
    (runWith 2 scenarioAParts scenarioAOverall
          (.ok ⟨[1, 2, 3], some (.readFailed "input/output error")⟩)).ret
        = .error (.errorsNew "an error occured") ∧
    (runWith 2 scenarioAParts scenarioAOverall
          (.ok ⟨[1, 2, 3], some (.readFailed "input/output error")⟩)).out.getLast?
        = some (.println (.readFailed "input/output error")) ∧
    partNumbers (runWith 2 scenarioAParts scenarioAOverall
          (.ok ⟨[1, 2, 3], some (.readFailed "input/output error")⟩)).out
        = (List.range (([1, 2, 3] : List UInt8).length / 2)).map
            (fun (k : Nat) => (k : Int) + 1) :=
  ⟨(C10_read_failure_aborts Sha256.sum256 Base64.decodeString 2 scenarioAParts
      scenarioAOverall [1, 2, 3] (.readFailed "input/output error") (by decide)).1,
    (C10_read_failure_aborts Sha256.sum256 Base64.decodeString 2 scenarioAParts
      scenarioAOverall [1, 2, 3] (.readFailed "input/output error") (by decide)).2.2.2
      (by decide)⟩

/-- Counterexample to C7: the local file holds one byte where the object had 17179871; the
parts list has two entries, the loop reaches one window, and the function prints a part line
and the overall line and returns nil. -/
theorem C7_counterexample :
    windowsReached partByteSize ⟨[0], none⟩ < twoPartZeros.length ∧
    run twoPartZeros twoPartZerosOverall (.ok ⟨[0], none⟩)
      = ⟨[.part 1 false "B0LMMRec9CTvvlLCmzI/KY5TY7+7FdL1YOPMnLoVHgQ=" (Sha256.sum256 [0]),
          .all false "6s03BczAUSgRB/QcmULeotpzqX/R5Ade3jKcLCVvzpw="
            (Sha256.sum256 (Sha256.sum256 [0]))], .nil⟩ := by
  decide

/-- C7, amended: when the file, read to its end, yields fewer windows than the parts list has
entries, the function does not notice: the entries after the windows reached are never read,
so the run is the run on the list cut after them; when the entries reached and the
whole-object checksum decode, it prints one part line per window reached, then the overall
line, and returns nil. -/
theorem C7_surplus_parts_ignored (P : Nat) (partsDetails : List ObjectPart)
    (overallChecksum : Option String) (bytes : List UInt8) (checksum : String)
    (b : List UInt8) (hP : 0 < P)
    (hfewer : windowsReached P ⟨bytes, none⟩ < partsDetails.length)
    (hparts : ∀ k, k ≤ bytes.length / P → partDecodes decodeString partsDetails k = true)
    (hov : overallChecksum = some checksum) (hb : decodeString checksum = .ok b) :
    (partsDetails.take (windowsReached P ⟨bytes, none⟩)).length < partsDetails.length ∧
    compareMultipartWith sha256 decodeString P partsDetails overallChecksum (.ok ⟨bytes, none⟩)
      = compareMultipartWith sha256 decodeString P
          (partsDetails.take (windowsReached P ⟨bytes, none⟩)) overallChecksum
          (.ok ⟨bytes, none⟩) ∧
    (compareMultipartWith sha256 decodeString P partsDetails overallChecksum
        (.ok ⟨bytes, none⟩)).ret = .nil ∧
    partNumbers (compareMultipartWith sha256 decodeString P partsDetails overallChecksum
        (.ok ⟨bytes, none⟩)).out
      = (List.range (bytes.length / P + 1)).map (fun (k : Nat) => (k : Int) + 1) ∧
    (compareMultipartWith sha256 decodeString P partsDetails overallChecksum
        (.ok ⟨bytes, none⟩)).out.length = bytes.length / P + 2 ∧
    ∃ matched sum, (compareMultipartWith sha256 decodeString P partsDetails overallChecksum
        (.ok ⟨bytes, none⟩)).out.getLast? = some (.all matched checksum sum) := by
  subst hov
  refine ⟨?_, ?_, ?_⟩
  · rw [List.length_take]
    omega
  · rw [compare_eq_runParts sha256 decodeString P hP partsDetails (some checksum) ⟨bytes, none⟩,
      compare_eq_runParts sha256 decodeString P hP _ (some checksum) ⟨bytes, none⟩]
    exact (runParts_take sha256 decodeString partsDetails _ _ (windowsOf P ⟨bytes, none⟩) 0 []
      (by rw [windowsOf_length]; omega)).symm
  · obtain ⟨lines, h1, h2, h3, _, h5, _⟩ := compare_of_decodes sha256 decodeString P hP
      partsDetails (some checksum) bytes hparts
    rw [finish_ok sha256 decodeString checksum _ b hb] at h1 h2
    rw [h1, h2]
    refine ⟨rfl, ?_, ?_, ⟨_, _, List.getLast?_concat _⟩⟩
    · rw [partNumbers_append, h5]
      simp [partNumbers]
    · simp [h3]

/-- Witness of C7: three bytes of Scenario A against its three-entry parts list, part
size 2. -/
theorem C7_surplus_parts_ignored_witness :
    (scenarioAParts.take (windowsReached 2 ⟨[1, 2, 3], none⟩)).length < scenarioAParts.length ∧
    runWith 2 scenarioAParts scenarioAOverall (.ok ⟨[1, 2, 3], none⟩)
      = runWith 2 (scenarioAParts.take (windowsReached 2 ⟨[1, 2, 3], none⟩)) scenarioAOverall
          (.ok ⟨[1, 2, 3], none⟩) ∧
    (runWith 2 scenarioAParts scenarioAOverall (.ok ⟨[1, 2, 3], none⟩)).ret = .nil ∧
    partNumbers (runWith 2 scenarioAParts scenarioAOverall (.ok ⟨[1, 2, 3], none⟩)).out
      = (List.range (([1, 2, 3] : List UInt8).length / 2 + 1)).map
          (fun (k : Nat) => (k : Int) + 1) ∧
    (runWith 2 scenarioAParts scenarioAOverall (.ok ⟨[1, 2, 3], none⟩)).out.length
      = ([1, 2, 3] : List UInt8).length / 2 + 2 ∧
    ∃ matched sum, (runWith 2 scenarioAParts scenarioAOverall
        (.ok ⟨[1, 2, 3], none⟩)).out.getLast?
      = some (.all matched "r/zYqjSWGSR62h4N0kIC3uTZcS+isOhSFyFKLcMFBRw=" sum) :=
  C7_surplus_parts_ignored Sha256.sum256 Base64.decodeString 2 scenarioAParts scenarioAOverall
    [1, 2, 3] "r/zYqjSWGSR62h4N0kIC3uTZcS+isOhSFyFKLcMFBRw="
    [175, 252, 216, 170, 52, 150, 25, 36, 122, 218, 30, 13, 210, 66, 2, 222, 228, 217, 113, 47,
      162, 176, 232, 82, 23, 33, 74, 45, 195, 5, 5, 28]
    (by decide) (by decide) (by decide) rfl (by decide)

/-- Counterexample to C9: the checksum of the only part is not base64; the function prints
nothing, neither a mismatched part line nor the overall line, and returns the decode error. -/
theorem C9_counterexample :
    run [⟨some "not base64!", some 1, some 1⟩] onePartZerosOverall (.ok ⟨[0], none⟩)
      = ⟨[], .error (.corruptInput 3)⟩ := by
  decide

/-- C9, amended: an expected digest that is not valid base64 ends the run with the decode
error.  When the checksum of part `j + 1` is the first that fails to decode, the function has
printed the part lines `1, ..., j` and nothing else: no line for part `j + 1`, no later part
line, no overall line.  When the part checksums decode and the whole-object checksum does not,
the function has printed the part lines and no overall line. -/
theorem C9_decode_failure_aborts (P : Nat) (partsDetails : List ObjectPart)
    (overallChecksum : Option String) (f : LocalFile) (hP : 0 < P) :
    (∀ (j : Nat) (part : ObjectPart) (checksum : String) (err : GoError),
      j < windowsReached P f →
      (∀ i, i < j → partDecodes decodeString partsDetails i = true) →
      partsDetails[j]? = some part → part.ChecksumSHA256 = some checksum →
      decodeString checksum = .error err →
      (compareMultipartWith sha256 decodeString P partsDetails overallChecksum (.ok f)).ret
          = .error err ∧
      (compareMultipartWith sha256 decodeString P partsDetails overallChecksum
          (.ok f)).out.length = j ∧
      partNumbers
          (compareMultipartWith sha256 decodeString P partsDetails overallChecksum (.ok f)).out
        = (List.range j).map (fun (k : Nat) => (k : Int) + 1)) ∧
    (∀ (checksum : String) (err : GoError),
      f.failure = none →
      (∀ i, i < windowsReached P f → partDecodes decodeString partsDetails i = true) →
      overallChecksum = some checksum → decodeString checksum = .error err →
      (compareMultipartWith sha256 decodeString P partsDetails overallChecksum (.ok f)).ret
          = .error err ∧
      (compareMultipartWith sha256 decodeString P partsDetails overallChecksum
          (.ok f)).out.length = windowsReached P f ∧
      partNumbers
          (compareMultipartWith sha256 decodeString P partsDetails overallChecksum (.ok f)).out
        = (List.range (windowsReached P f)).map (fun (k : Nat) => (k : Int) + 1)) := by
  constructor
  · intro j part checksum err hj hdec hpart hsum hd
    rw [compare_eq_runParts sha256 decodeString P hP partsDetails overallChecksum f]
    obtain ⟨h1, h2, h3, _⟩ := runParts_stops sha256 decodeString partsDetails
      (endOf sha256 decodeString overallChecksum f.failure) (windowsOf P f) j
      (by rw [windowsOf_length]; exact hj) (.error err) hdec
      (fun w app => checkPart_decode_error sha256 decodeString partsDetails j part checksum err
        w app hpart hsum hd)
    exact ⟨h1, h2, h3⟩
  · intro checksum err hf hdec hov hd
    obtain ⟨bytes, failure⟩ := f
    simp only at hf
    subst hf hov
    have hw : windowsReached P ⟨bytes, none⟩ = bytes.length / P + 1 := rfl
    obtain ⟨lines, h1, h2, h3, _, h5, _⟩ := compare_of_decodes sha256 decodeString P hP
      partsDetails (some checksum) bytes (fun k hk => hdec k (by rw [hw]; omega))
    rw [finish_error sha256 decodeString checksum _ err hd] at h1 h2
    rw [h1, h2, hw, List.append_nil]
    exact ⟨rfl, h3, h5⟩

/-- Witness of C9: Scenario A with the second checksum damaged, and Scenario A with the
whole-object checksum damaged. -/
theorem C9_decode_failure_aborts_witness :
    ((runWith 2 [⟨some "oShx/uIQ+4YZKR6uoZRYHL0lMeSyN1nSJfaAaSP2MiI=", some 1, some 2⟩,
        ⟨some "DOOUC+vysipdIQjs8MNooFQ*", some 2, some 2⟩,
        ⟨some "53uamunjCw29tvUQomTvneeBUB17a5KuiesFnFq3Q9s=", some 3, some 1⟩]
        scenarioAOverall (.ok scenarioAFile)).ret = .error (.corruptInput 23) ∧
      (runWith 2 [⟨some "oShx/uIQ+4YZKR6uoZRYHL0lMeSyN1nSJfaAaSP2MiI=", some 1, some 2⟩,
        ⟨some "DOOUC+vysipdIQjs8MNooFQ*", some 2, some 2⟩,
        ⟨some "53uamunjCw29tvUQomTvneeBUB17a5KuiesFnFq3Q9s=", some 3, some 1⟩]
        scenarioAOverall (.ok scenarioAFile)).out.length = 1 ∧
      partNumbers (runWith 2
        [⟨some "oShx/uIQ+4YZKR6uoZRYHL0lMeSyN1nSJfaAaSP2MiI=", some 1, some 2⟩,
        ⟨some "DOOUC+vysipdIQjs8MNooFQ*", some 2, some 2⟩,
        ⟨some "53uamunjCw29tvUQomTvneeBUB17a5KuiesFnFq3Q9s=", some 3, some 1⟩]
        scenarioAOverall (.ok scenarioAFile)).out
        = (List.range 1).map (fun (k : Nat) => (k : Int) + 1)) ∧
    ((runWith 2 scenarioAParts (some "r/zY=") (.ok scenarioAFile)).ret
        = .error (.corruptInput 4) ∧
      (runWith 2 scenarioAParts (some "r/zY=") (.ok scenarioAFile)).out.length
        = windowsReached 2 scenarioAFile ∧
      partNumbers (runWith 2 scenarioAParts (some "r/zY=") (.ok scenarioAFile)).out
        = (List.range (windowsReached 2 scenarioAFile)).map
            (fun (k : Nat) => (k : Int) + 1)) :=
  ⟨(C9_decode_failure_aborts Sha256.sum256 Base64.decodeString 2
      [⟨some "oShx/uIQ+4YZKR6uoZRYHL0lMeSyN1nSJfaAaSP2MiI=", some 1, some 2⟩,
        ⟨some "DOOUC+vysipdIQjs8MNooFQ*", some 2, some 2⟩,
        ⟨some "53uamunjCw29tvUQomTvneeBUB17a5KuiesFnFq3Q9s=", some 3, some 1⟩]
      scenarioAOverall scenarioAFile (by decide)).1 1
      ⟨some "DOOUC+vysipdIQjs8MNooFQ*", some 2, some 2⟩ "DOOUC+vysipdIQjs8MNooFQ*"
      (.corruptInput 23) (by decide) (by decide) rfl rfl (by decide),
    (C9_decode_failure_aborts Sha256.sum256 Base64.decodeString 2 scenarioAParts
      (some "r/zY=") scenarioAFile (by decide)).2 "r/zY=" (.corruptInput 4) rfl (by decide) rfl
      (by decide)⟩

end Claims

/-! ## Further properties of the loop, and the remaining claims -/

section More


variable (sha256 : List UInt8 → List UInt8)
variable (decodeString : String → Except GoError (List UInt8))

/-- The part index of the end-of-stream iteration of a file of `n` bytes is `n / P`. -/
theorem partIndexAt_end (P : Nat) (hP : 0 < P) (n : Nat) :
    partIndexAt P (n + 1) true = ((n / P : Nat) : Int) := by
  have h3 := Nat.div_add_mod n P
  have h4 := Nat.mod_lt n hP
  by_cases hb : (n + 1) % P = 0
  · rw [partIndexAt_boundary P _ hP hb (by omega) true]
    congr 1
    have h5 : n % P + 1 = P := by
      have h6 : (P * (n / P) + (n % P + 1)) % P = 0 := by
        rw [← Nat.add_assoc, h3]; exact hb
      rw [Nat.mul_add_mod] at h6
      by_contra hne
      rw [Nat.mod_eq_of_lt (by omega)] at h6
      omega
    have h7 : n + 1 = P * (n / P + 1) := by
      have h10 := Nat.mul_add P (n / P) 1
      rw [Nat.mul_one] at h10
      omega
    rw [h7, Nat.mul_div_cancel_left _ hP]
    exact Nat.add_sub_cancel _ _
  · rw [partIndexAt_eof P _ hb]
    congr 1
    have h6 : (P * (n / P) + (n % P + 1)) % P ≠ 0 := by
      rw [← Nat.add_assoc, h3]; exact hb
    rw [Nat.mul_add_mod] at h6
    have h8 : n % P + 1 < P := by
      by_contra hne
      have : n % P + 1 = P := by omega
      rw [this, Nat.mod_self] at h6
      exact h6 rfl
    have h9 : n + 1 = P * (n / P) + (n % P + 1) := by omega
    rw [h9, Nat.mul_add_div hP, Nat.div_eq_of_lt h8]
    omega

/-- A sequence of part checks that returns nil has found a decodable checksum for each of
its windows. -/
theorem runParts_ret_nil_decodes (partsDetails : List ObjectPart)
    (cont : Nat → List UInt8 → Run) :
    ∀ (ws : List (List UInt8)) (k : Nat) (appendedHash : List UInt8),
      (runParts sha256 decodeString partsDetails k ws appendedHash cont).ret = .nil →
      ∀ i, i < ws.length → partDecodes decodeString partsDetails (k + i) = true := by
  intro ws
  induction ws with
  | nil => intro k appendedHash _ i hi; simp at hi
  | cons w ws ih =>
    intro k appendedHash he i hi
    simp only [runParts] at he
    cases hc : checkPart sha256 decodeString partsDetails (k : Int) w appendedHash with
    | error o =>
      simp only [hc] at he
      exact absurd he (checkPart_error_ne_nil sha256 decodeString partsDetails k w appendedHash o hc)
    | ok v =>
      obtain ⟨line, app⟩ := v
      obtain ⟨part, checksum, b, hidx, hsum, hd, _, _⟩ :=
        checkPart_inv sha256 decodeString partsDetails k w appendedHash line app hc
      rw [indexPart_natCast] at hidx
      simp only [hc] at he
      rcases i with _ | i
      · simp [partDecodes, hidx, hsum, hd]
      · have := ih (k + 1) app he i (by simp only [List.length_cons] at hi; omega)
        rwa [show k + 1 + i = k + (i + 1) by omega] at this

theorem partNumbers_length_le (l : List Event) : (partNumbers l).length ≤ l.length := by
  induction l with
  | nil => simp [partNumbers]
  | cons e l ih => cases e <;> simp [partNumbers] <;> omega

/-- A list with as many part numbers as lines consists of part lines. -/
theorem all_parts_of_partNumbers_length (l : List Event)
    (h : (partNumbers l).length = l.length) :
    ∀ e, e ∈ l → ∃ number matched checksum sum, e = .part number matched checksum sum := by
  induction l with
  | nil => intro e he; simp at he
  | cons x l ih =>
    have hle := partNumbers_length_le l
    cases x with
    | println err => simp [partNumbers] at h; omega
    | all m c s => simp [partNumbers] at h; omega
    | part number matched checksum sum =>
      simp only [partNumbers, List.length_cons, Nat.add_right_cancel_iff] at h
      intro e he
      simp only [List.mem_cons] at he
      rcases he with he | he
      · exact ⟨number, matched, checksum, sum, he⟩
      · exact ih h e he

/-- The shape of the output of a run that returns nil. -/
theorem compare_ret_nil (P : Nat) (hP : 0 < P) (partsDetails : List ObjectPart)
    (overallChecksum : Option String) (file : Except GoError LocalFile)
    (hret : (compareMultipartWith sha256 decodeString P partsDetails overallChecksum file).ret
      = .nil) :
    ∃ f checksum b lines, file = .ok f ∧ f.failure = none ∧
      overallChecksum = some checksum ∧ decodeString checksum = .ok b ∧
      (∀ k, k ≤ f.bytes.length / P → partDecodes decodeString partsDetails k = true) ∧
      (compareMultipartWith sha256 decodeString P partsDetails overallChecksum file).out
        = lines ++ [.all (decide (getHash sha256 ((List.range (f.bytes.length / P + 1)).map
            (fun k => sha256 (window P f.bytes k))).flatten = b)) checksum
            (getHash sha256 ((List.range (f.bytes.length / P + 1)).map
              (fun k => sha256 (window P f.bytes k))).flatten)] ∧
      lines.length = f.bytes.length / P + 1 ∧
      partSums lines
        = (List.range (f.bytes.length / P + 1)).map (fun k => sha256 (window P f.bytes k)) ∧
      partNumbers lines
        = (List.range (f.bytes.length / P + 1)).map (fun (k : Nat) => (k : Int) + 1) := by
  cases file with
  | error err => simp [compareMultipartWith] at hret
  | ok f =>
    obtain ⟨bytes, failure⟩ := f
    rw [compare_eq_runParts sha256 decodeString P hP partsDetails overallChecksum] at hret
    have hdec := runParts_ret_nil_decodes sha256 decodeString partsDetails _ _ 0 [] hret
    obtain ⟨_, hend⟩ := runParts_ret_nil sha256 decodeString partsDetails _ _ 0 [] hret
    cases failure with
    | some err => rw [endOf_failure] at hend; cases hend
    | none =>
      have hw : windowsReached P ⟨bytes, none⟩ = bytes.length / P + 1 := rfl
      have hparts : ∀ k, k ≤ bytes.length / P →
          partDecodes decodeString partsDetails k = true := by
        intro k hk
        have := hdec k (by rw [windowsOf_length, hw]; omega)
        rwa [Nat.zero_add] at this
      obtain ⟨lines, h1, h2, h3, h4, h5, _⟩ := compare_of_decodes sha256 decodeString P hP
        partsDetails overallChecksum bytes hparts
      simp only [endOf] at hend
      cases overallChecksum with
      | none => rw [finish_none] at hend; cases hend
      | some checksum =>
        cases hd : decodeString checksum with
        | error err =>
          rw [finish_error sha256 decodeString checksum _ err hd] at hend
          cases hend
        | ok b =>
          rw [finish_ok sha256 decodeString checksum _ b hd] at h1
          exact ⟨⟨bytes, none⟩, checksum, b, lines, rfl, rfl, rfl, hd, hparts, h1, h3, h4, h5⟩

/-- C11, at the failing input: the empty local file with the empty parts list (and the
whole-object checksum of zero parts, the digest of the empty byte sequence).  The
end-of-stream iteration indexes `partsDetails[0]`: the function panics and prints nothing, in
particular no overall line. -/
theorem C11_empty_file_panics :
    run [] (some "47DEQpj8HBSa+/TImW+5JCeuQeRkm5NMpJWZG3hSuFU=") (.ok ⟨[], none⟩)
      = ⟨[], .panic .indexOutOfRange⟩ := by
  decide

/-- C12: a digest mismatch is a verdict, not an error.  When the file is read to its end, the
parts list has a decodable checksum for every window the loop reaches and the whole-object
checksum decodes, the function returns nil after one part line per window reached, numbered
`1, ..., n / P + 1` and carrying the digests of the windows, followed by the overall line as
the last line, whatever the verdicts on these lines are. -/
theorem C12_mismatch_is_a_verdict (P : Nat) (partsDetails : List ObjectPart)
    (overallChecksum : Option String) (bytes : List UInt8) (checksum : String)
    (b : List UInt8) (hP : 0 < P)
    (hparts : ∀ k, k ≤ bytes.length / P → partDecodes decodeString partsDetails k = true)
    (hov : overallChecksum = some checksum) (hb : decodeString checksum = .ok b) :
    (compareMultipartWith sha256 decodeString P partsDetails overallChecksum
        (.ok ⟨bytes, none⟩)).ret = .nil ∧
    partNumbers (compareMultipartWith sha256 decodeString P partsDetails overallChecksum
        (.ok ⟨bytes, none⟩)).out
      = (List.range (bytes.length / P + 1)).map (fun (k : Nat) => (k : Int) + 1) ∧
    partSums (compareMultipartWith sha256 decodeString P partsDetails overallChecksum
        (.ok ⟨bytes, none⟩)).out
      = (List.range (bytes.length / P + 1)).map (fun k => sha256 (window P bytes k)) ∧
    (compareMultipartWith sha256 decodeString P partsDetails overallChecksum
        (.ok ⟨bytes, none⟩)).out.length = bytes.length / P + 2 ∧
    ∃ matched sum, (compareMultipartWith sha256 decodeString P partsDetails overallChecksum
        (.ok ⟨bytes, none⟩)).out.getLast? = some (.all matched checksum sum) := by
  subst hov
  obtain ⟨lines, h1, h2, h3, h4, h5, _⟩ := compare_of_decodes sha256 decodeString P hP
    partsDetails (some checksum) bytes hparts
  rw [finish_ok sha256 decodeString checksum _ b hb] at h1 h2
  rw [h1, h2]
  refine ⟨rfl, ?_, ?_, ?_, ⟨_, _, List.getLast?_concat _⟩⟩
  · rw [partNumbers_append, h5]
    simp [partNumbers]
  · rw [partSums_append, h4]
    simp [partSums]
  · simp [h3]

/-- Witness of C12: the metadata of Scenario A against a file of five other bytes: every
verdict is a mismatch and the function returns nil. -/
theorem C12_mismatch_is_a_verdict_witness :
    partVerdicts (runWith 2 scenarioAParts scenarioAOverall
        (.ok ⟨[9, 9, 9, 9, 9], none⟩)).out = [false, false, false] ∧
    (runWith 2 scenarioAParts scenarioAOverall (.ok ⟨[9, 9, 9, 9, 9], none⟩)).ret = .nil ∧
    partNumbers (runWith 2 scenarioAParts scenarioAOverall (.ok ⟨[9, 9, 9, 9, 9], none⟩)).out
      = (List.range (([9, 9, 9, 9, 9] : List UInt8).length / 2 + 1)).map
          (fun (k : Nat) => (k : Int) + 1) ∧
    partSums (runWith 2 scenarioAParts scenarioAOverall (.ok ⟨[9, 9, 9, 9, 9], none⟩)).out
      = (List.range (([9, 9, 9, 9, 9] : List UInt8).length / 2 + 1)).map
          (fun k => Sha256.sum256 (window 2 [9, 9, 9, 9, 9] k)) ∧
    (runWith 2 scenarioAParts scenarioAOverall (.ok ⟨[9, 9, 9, 9, 9], none⟩)).out.length
      = ([9, 9, 9, 9, 9] : List UInt8).length / 2 + 2 ∧
    ∃ matched sum, (runWith 2 scenarioAParts scenarioAOverall
        (.ok ⟨[9, 9, 9, 9, 9], none⟩)).out.getLast?
      = some (.all matched "r/zYqjSWGSR62h4N0kIC3uTZcS+isOhSFyFKLcMFBRw=" sum) :=
  ⟨by decide,
    C12_mismatch_is_a_verdict Sha256.sum256 Base64.decodeString 2 scenarioAParts
      scenarioAOverall [9, 9, 9, 9, 9] "r/zYqjSWGSR62h4N0kIC3uTZcS+isOhSFyFKLcMFBRw="
      [175, 252, 216, 170, 52, 150, 25, 36, 122, 218, 30, 13, 210, 66, 2, 222, 228, 217, 113,
        47, 162, 176, 232, 82, 23, 33, 74, 45, 195, 5, 5, 28]
      (by decide) (by decide) rfl (by decide)⟩

/-- C13: the output of a run that returns nil is a sequence of part lines, numbered
`1, 2, ..., m` in this order, followed by exactly one overall line, which is the last
line. -/
theorem C13_output_shape (P : Nat) (partsDetails : List ObjectPart)
    (overallChecksum : Option String) (file : Except GoError LocalFile) (hP : 0 < P)
    (hret : (compareMultipartWith sha256 decodeString P partsDetails overallChecksum file).ret
      = .nil) :
    ∃ lines matched checksum sum,
      (compareMultipartWith sha256 decodeString P partsDetails overallChecksum file).out
        = lines ++ [.all matched checksum sum] ∧
      (∀ e, e ∈ lines → ∃ number m c s, e = Event.part number m c s) ∧
      partNumbers lines = (List.range lines.length).map (fun (k : Nat) => (k : Int) + 1) := by
  obtain ⟨f, checksum, b, lines, _, _, _, _, _, h1, h3, _, h5⟩ :=
    compare_ret_nil sha256 decodeString P hP partsDetails overallChecksum file hret
  refine ⟨lines, _, checksum, _, h1, ?_, by rw [h5, h3]⟩
  apply all_parts_of_partNumbers_length
  rw [h5, h3]
  simp

/-- Witness of C13: Scenario A. -/
theorem C13_output_shape_witness :
    ∃ lines matched checksum sum,
      (runWith 2 scenarioAParts scenarioAOverall (.ok scenarioAFile)).out
        = lines ++ [.all matched checksum sum] ∧
      (∀ e, e ∈ lines → ∃ number m c s, e = Event.part number m c s) ∧
      partNumbers lines = (List.range lines.length).map (fun (k : Nat) => (k : Int) + 1) :=
  C13_output_shape Sha256.sum256 Base64.decodeString 2 scenarioAParts scenarioAOverall
    (.ok scenarioAFile) (by decide) (by decide)

/-- The part check reads nothing of the parts list but the checksums. -/
theorem checkPart_congr (parts1 parts2 : List ObjectPart)
    (hsame : parts1.map (fun p => p.ChecksumSHA256) = parts2.map (fun p => p.ChecksumSHA256))
    (partIndex : Int) (h appendedHash : List UInt8) :
    checkPart sha256 decodeString parts1 partIndex h appendedHash
      = checkPart sha256 decodeString parts2 partIndex h appendedHash := by
  have hget : ∀ i : Nat, (parts1[i]?).map (fun p => p.ChecksumSHA256)
      = (parts2[i]?).map (fun p => p.ChecksumSHA256) := by
    intro i
    rw [← List.getElem?_map, ← List.getElem?_map, hsame]
  unfold checkPart indexPart
  by_cases hneg : partIndex < 0
  · simp [hneg]
  · simp only [hneg, if_false]
    have := hget partIndex.toNat
    cases h1 : parts1[partIndex.toNat]? with
    | none =>
      cases h2 : parts2[partIndex.toNat]? with
      | none => rfl
      | some p2 => rw [h1, h2] at this; simp at this
    | some p1 =>
      cases h2 : parts2[partIndex.toNat]? with
      | none => rw [h1, h2] at this; simp at this
      | some p2 =>
        rw [h1, h2] at this
        simp only [Option.map_some', Option.some.injEq] at this
        simp only [this]

theorem readLoop_congr (P : Nat) (parts1 parts2 : List ObjectPart)
    (hsame : parts1.map (fun p => p.ChecksumSHA256) = parts2.map (fun p => p.ChecksumSHA256))
    (overallChecksum : Option String) (failure : Option GoError) :
    ∀ (bytes : List UInt8) (count : Nat) (h appendedHash : List UInt8),
      readLoop sha256 decodeString P parts1 overallChecksum failure bytes count h appendedHash
        = readLoop sha256 decodeString P parts2 overallChecksum failure bytes count h
            appendedHash := by
  intro bytes
  induction bytes with
  | nil =>
    intro count h appendedHash
    simp only [readLoop, checkPart_congr sha256 decodeString parts1 parts2 hsame]
  | cons curr rest ih =>
    intro count h appendedHash
    simp only [readLoop, checkPart_congr sha256 decodeString parts1 parts2 hsame, ih]

/-- The run is determined by what the function reads: two parts lists that carry the same
checksums on the entries the loop reaches give the same run. -/
theorem compare_determined_by_read (P : Nat) (hP : 0 < P) (parts1 parts2 : List ObjectPart)
    (overallChecksum : Option String) (f : LocalFile)
    (hsame : (parts1.take (windowsReached P f)).map (fun p => p.ChecksumSHA256)
      = (parts2.take (windowsReached P f)).map (fun p => p.ChecksumSHA256)) :
    compareMultipartWith sha256 decodeString P parts1 overallChecksum (.ok f)
      = compareMultipartWith sha256 decodeString P parts2 overallChecksum (.ok f) := by
  have hcut : ∀ parts : List ObjectPart,
      compareMultipartWith sha256 decodeString P parts overallChecksum (.ok f)
        = compareMultipartWith sha256 decodeString P (parts.take (windowsReached P f))
            overallChecksum (.ok f) := by
    intro parts
    rw [compare_eq_runParts sha256 decodeString P hP parts overallChecksum f,
      compare_eq_runParts sha256 decodeString P hP _ overallChecksum f]
    exact (runParts_take sha256 decodeString parts _ _ (windowsOf P f) 0 []
      (by rw [windowsOf_length]; omega)).symm
  rw [hcut parts1, hcut parts2]
  exact readLoop_congr sha256 decodeString P _ _ hsame overallChecksum f.failure f.bytes 0 [] []

/-- Counterexample to C14: the only entry of the parts list has `PartNumber` 5; the function
matches the window to it by position, prints both lines as matched and returns nil. -/
theorem C14_counterexample :
    run [⟨some "ypeBEsobvcr6wjGzmiPcTaeG7/gUfE5yuYB3ha/uSLs=", some 5, some 1⟩]
        (some "v106/7c+/S7Gw2rTES3ZM+/tY8Thy//PqI4nWcFE8tg=") (.ok ⟨[97], none⟩)
      = ⟨[.part 1 true "ypeBEsobvcr6wjGzmiPcTaeG7/gUfE5yuYB3ha/uSLs=" (Sha256.sum256 [97]),
          .all true "v106/7c+/S7Gw2rTES3ZM+/tY8Thy//PqI4nWcFE8tg="
            (Sha256.sum256 (Sha256.sum256 [97]))], .nil⟩ := by
  decide

/-- C14, amended: the function never reads `PartNumber`; it matches windows to parts by
position in the list, so two parts lists that carry the same checksums in the same order give
the same run, whatever their `PartNumber` (and `Size`) values are. -/
theorem C14_part_numbers_not_read (P : Nat) (parts1 parts2 : List ObjectPart)
    (overallChecksum : Option String) (file : Except GoError LocalFile)
    (hsame : parts1.map (fun p => p.ChecksumSHA256)
      = parts2.map (fun p => p.ChecksumSHA256)) :
    compareMultipartWith sha256 decodeString P parts1 overallChecksum file
      = compareMultipartWith sha256 decodeString P parts2 overallChecksum file := by
  cases file with
  | error err => rfl
  | ok f =>
    exact readLoop_congr sha256 decodeString P parts1 parts2 hsame overallChecksum f.failure
      f.bytes 0 [] []

/-- Witness of C14: Scenario A with part numbers 3, 1 and none gives the run of
Scenario A. -/
theorem C14_part_numbers_not_read_witness :
    runWith 2
        [⟨some "oShx/uIQ+4YZKR6uoZRYHL0lMeSyN1nSJfaAaSP2MiI=", some 3, some 2⟩,
          ⟨some "DOOUC+vysipdIQjs8MNooFQcfjxFcD+FQJIbTq/IKUc=", some 1, none⟩,
          ⟨some "53uamunjCw29tvUQomTvneeBUB17a5KuiesFnFq3Q9s=", none, some 1⟩]
        scenarioAOverall (.ok scenarioAFile)
      = runWith 2 scenarioAParts scenarioAOverall (.ok scenarioAFile) :=
  C14_part_numbers_not_read Sha256.sum256 Base64.decodeString 2 _ scenarioAParts
    scenarioAOverall (.ok scenarioAFile) (by decide)

/-- The loop with the final values of its variables prints and returns what `readLoop`
does. -/
theorem loopVars_run (P : Nat) (partsDetails : List ObjectPart)
    (overallChecksum : Option String) (failure : Option GoError) :
    ∀ (bytes : List UInt8) (count : Nat) (h appendedHash : List UInt8),
      (loopVars sha256 decodeString P partsDetails overallChecksum failure bytes count h
          appendedHash).1
        = readLoop sha256 decodeString P partsDetails overallChecksum failure bytes count h
            appendedHash := by
  intro bytes
  induction bytes with
  | nil =>
    intro count h appendedHash
    cases failure with
    | some err => rfl
    | none =>
      simp only [loopVars, readLoop]
      cases checkPart sha256 decodeString partsDetails (partIndexAt P (count + 1) true) h
          appendedHash with
      | error o => rfl
      | ok v => rfl
  | cons curr rest ih =>
    intro count h appendedHash
    simp only [loopVars, readLoop]
    by_cases hb : (count + 1) % P = 0
    · simp only [hb, if_true]
      cases checkPart sha256 decodeString partsDetails (partIndexAt P (count + 1) false)
          (h ++ [curr]) appendedHash with
      | error o => rfl
      | ok v =>
        obtain ⟨line, app⟩ := v
        simp only [ih]
    · simp only [hb, if_false]
      exact ih (count + 1) (h ++ [curr]) appendedHash

/-- The assignments before the loop leave nothing of the store they start from. -/
theorem prologue_fresh (f : LocalFile) (v : Vars) :
    prologue f v = ⟨0, [], [], f.bytes⟩ := rfl

/-- A call prints and returns the same on every store. -/
theorem callOn_run (P : Nat) (partsDetails : List ObjectPart)
    (overallChecksum : Option String) (file : Except GoError LocalFile) (v : Vars) :
    (callOn sha256 decodeString P partsDetails overallChecksum file v).1
      = compareMultipartWith sha256 decodeString P partsDetails overallChecksum file := by
  cases file with
  | error err => rfl
  | ok f =>
    simp only [callOn, loopOn, prologue_fresh, compareMultipartWith]
    exact loopVars_run sha256 decodeString P partsDetails overallChecksum f.failure f.bytes 0
      [] []

/-- C15: of two calls in sequence on the same parts list, the same whole-object checksum and
the same file (same bytes, same read outcome), the second one prints the same lines and
returns the same value as the first, whatever store the first call started on and whatever it
left in `count`, `h`, `appendedHash` and the reader: lines 75-85 assign every variable the loop
reads before the loop reads it.  Both runs are the run of `compareMultipartWith`. -/
theorem C15_second_run_same (P : Nat) (partsDetails : List ObjectPart)
    (overallChecksum : Option String) (file : Except GoError LocalFile) (v : Vars) :
    (twoCalls sha256 decodeString P partsDetails overallChecksum file v).2.out
      = (twoCalls sha256 decodeString P partsDetails overallChecksum file v).1.out ∧
    (twoCalls sha256 decodeString P partsDetails overallChecksum file v).2.ret
      = (twoCalls sha256 decodeString P partsDetails overallChecksum file v).1.ret ∧
    (twoCalls sha256 decodeString P partsDetails overallChecksum file v).1
      = compareMultipartWith sha256 decodeString P partsDetails overallChecksum file := by
  have h1 := callOn_run sha256 decodeString P partsDetails overallChecksum file v
  have h2 := callOn_run sha256 decodeString P partsDetails overallChecksum file
    (callOn sha256 decodeString P partsDetails overallChecksum file v).2
  refine ⟨?_, ?_, ?_⟩
  · show (callOn sha256 decodeString P partsDetails overallChecksum file
        (callOn sha256 decodeString P partsDetails overallChecksum file v).2).1.out
      = (callOn sha256 decodeString P partsDetails overallChecksum file v).1.out
    rw [h1, h2]
  · show (callOn sha256 decodeString P partsDetails overallChecksum file
        (callOn sha256 decodeString P partsDetails overallChecksum file v).2).1.ret
      = (callOn sha256 decodeString P partsDetails overallChecksum file v).1.ret
    rw [h1, h2]
  · exact h1

/-- Witness of C15: Scenario A twice.  The first call leaves `count = 6` and the 96 bytes of
the three digests in `appendedHash`; the second call prints and returns the same. -/
theorem C15_second_run_same_witness :
    (callOn Sha256.sum256 Base64.decodeString 2 scenarioAParts scenarioAOverall
        (.ok scenarioAFile) ⟨0, [], [], []⟩).2.count = 6 ∧
    (callOn Sha256.sum256 Base64.decodeString 2 scenarioAParts scenarioAOverall
        (.ok scenarioAFile) ⟨0, [], [], []⟩).2.appendedHash.length = 96 ∧
    (twoCalls Sha256.sum256 Base64.decodeString 2 scenarioAParts scenarioAOverall
        (.ok scenarioAFile) ⟨0, [], [], []⟩).2.out
      = (twoCalls Sha256.sum256 Base64.decodeString 2 scenarioAParts scenarioAOverall
        (.ok scenarioAFile) ⟨0, [], [], []⟩).1.out ∧
    (twoCalls Sha256.sum256 Base64.decodeString 2 scenarioAParts scenarioAOverall
        (.ok scenarioAFile) ⟨0, [], [], []⟩).2.ret
      = (twoCalls Sha256.sum256 Base64.decodeString 2 scenarioAParts scenarioAOverall
        (.ok scenarioAFile) ⟨0, [], [], []⟩).1.ret :=
  ⟨by decide, by decide,
    (C15_second_run_same Sha256.sum256 Base64.decodeString 2 scenarioAParts scenarioAOverall
      (.ok scenarioAFile) ⟨0, [], [], []⟩).1,
    (C15_second_run_same Sha256.sum256 Base64.decodeString 2 scenarioAParts scenarioAOverall
      (.ok scenarioAFile) ⟨0, [], [], []⟩).2.1⟩

/-- A part check panics only on an index outside the list or on an entry without
checksum. -/
theorem checkPart_panic (partsDetails : List ObjectPart) (k : Nat)
    (h appendedHash : List UInt8) (p : Panic)
    (hc : checkPart sha256 decodeString partsDetails (k : Int) h appendedHash
      = .error (.panic p)) :
    (partsDetails.length ≤ k ∧ p = .indexOutOfRange) ∨
      (∃ part, partsDetails[k]? = some part ∧ part.ChecksumSHA256 = none ∧
        p = .nilDereference) := by
  unfold checkPart at hc
  rw [indexPart_natCast] at hc
  cases hi : partsDetails[k]? with
  | none =>
    simp only [hi, Except.error.injEq, Outcome.panic.injEq] at hc
    exact Or.inl ⟨List.getElem?_eq_none_iff.mp hi, hc.symm⟩
  | some part =>
    cases hs : part.ChecksumSHA256 with
    | none =>
      simp only [hi, hs, Except.error.injEq, Outcome.panic.injEq] at hc
      exact Or.inr ⟨part, rfl, hs, hc.symm⟩
    | some checksum =>
      cases hd : decodeString checksum with
      | error err => simp [hi, hs, hd] at hc
      | ok b => simp [hi, hs, hd] at hc

/-- A sequence of part checks panics only in one of its checks or in its continuation. -/
theorem runParts_ret_panic (partsDetails : List ObjectPart) (cont : Nat → List UInt8 → Run)
    (p : Panic) :
    ∀ (ws : List (List UInt8)) (k : Nat) (appendedHash : List UInt8),
      (runParts sha256 decodeString partsDetails k ws appendedHash cont).ret = .panic p →
      (∃ i, i < ws.length ∧
        ((partsDetails.length ≤ k + i ∧ p = .indexOutOfRange) ∨
          (∃ part, partsDetails[k + i]? = some part ∧ part.ChecksumSHA256 = none ∧
            p = .nilDereference))) ∨
        ∃ app, (cont (k + ws.length) app).ret = .panic p := by
  intro ws
  induction ws with
  | nil => intro k appendedHash he; exact Or.inr ⟨appendedHash, by simpa [runParts] using he⟩
  | cons w ws ih =>
    intro k appendedHash he
    simp only [runParts] at he
    cases hc : checkPart sha256 decodeString partsDetails (k : Int) w appendedHash with
    | error o =>
      simp only [hc] at he
      subst he
      exact Or.inl ⟨0, by simp, by
        simpa using checkPart_panic sha256 decodeString partsDetails k w appendedHash p hc⟩
    | ok v =>
      obtain ⟨line, app⟩ := v
      simp only [hc] at he
      rcases ih (k + 1) app he with ⟨i, hi, h1⟩ | ⟨app2, h2⟩
      · left
        refine ⟨i + 1, by simp only [List.length_cons]; omega, ?_⟩
        rwa [show k + (i + 1) = k + 1 + i by omega]
      · right
        refine ⟨app2, ?_⟩
        rwa [show k + (w :: ws).length = k + 1 + ws.length by
          simp only [List.length_cons]; omega]

/-- After the last part check the function panics only on a nil whole-object checksum. -/
theorem endOf_ret_panic (overallChecksum : Option String) (failure : Option GoError) (k : Nat)
    (appendedHash : List UInt8) (p : Panic)
    (h : (endOf sha256 decodeString overallChecksum failure k appendedHash).ret = .panic p) :
    overallChecksum = none ∧ p = .nilDereference := by
  cases failure with
  | some err => rw [endOf_failure] at h; cases h
  | none =>
    simp only [endOf] at h
    cases overallChecksum with
    | none => rw [finish_none] at h; cases h; exact ⟨rfl, rfl⟩
    | some c =>
      cases hd : decodeString c with
      | error err => rw [finish_error sha256 decodeString c appendedHash err hd] at h; cases h
      | ok b => rw [finish_ok sha256 decodeString c appendedHash b hd] at h; cases h

/-- C16: for a file of `n` bytes read to its end and a parts list whose first `n / P + 1`
entries exist and decode, the function prints exactly `n / P + 1` part lines.  The
end-of-stream iteration, at `count = n + 1`, has the zero-based part index `n / P` and prints
the last of them, over the `n % P` bytes after the last full window; when `n` is a multiple of
`P` these are no bytes, and the digest on the line is the SHA-256 of the empty sequence. -/
theorem C16_eof_iteration_prints_part (P : Nat) (partsDetails : List ObjectPart)
    (overallChecksum : Option String) (bytes : List UInt8) (hP : 0 < P)
    (hparts : ∀ k, k ≤ bytes.length / P → partDecodes decodeString partsDetails k = true) :
    partIndexAt P (bytes.length + 1) true = ((bytes.length / P : Nat) : Int) ∧
    partNumbers (compareMultipartWith sha256 decodeString P partsDetails overallChecksum
        (.ok ⟨bytes, none⟩)).out
      = (List.range (bytes.length / P + 1)).map (fun (k : Nat) => (k : Int) + 1) ∧
    (partNumbers (compareMultipartWith sha256 decodeString P partsDetails overallChecksum
        (.ok ⟨bytes, none⟩)).out).length = bytes.length / P + 1 ∧
    (partSums (compareMultipartWith sha256 decodeString P partsDetails overallChecksum
        (.ok ⟨bytes, none⟩)).out).getLast?
      = some (sha256 (bytes.drop (bytes.length / P * P))) ∧
    (bytes.drop (bytes.length / P * P)).length = bytes.length % P ∧
    (bytes.length % P = 0 →
      (partSums (compareMultipartWith sha256 decodeString P partsDetails overallChecksum
        (.ok ⟨bytes, none⟩)).out).getLast? = some (sha256 [])) := by
  obtain ⟨lines, h1, _, _, h4, h5, _⟩ := compare_of_decodes sha256 decodeString P hP
    partsDetails overallChecksum bytes hparts
  have hfin : ∀ app, partSums (finish sha256 decodeString overallChecksum app).out = [] ∧
      partNumbers (finish sha256 decodeString overallChecksum app).out = [] := fun app =>
    ⟨partSums_endOf sha256 decodeString overallChecksum none 0 app,
      partNumbers_endOf sha256 decodeString overallChecksum none 0 app⟩
  have hdrop : (bytes.drop (bytes.length / P * P)).length = bytes.length % P := by
    have h3 := Nat.div_add_mod bytes.length P
    rw [Nat.mul_comm] at h3
    rw [List.length_drop]
    omega
  have hlast : window P bytes (bytes.length / P) = bytes.drop (bytes.length / P * P) := by
    have := Nat.mod_lt bytes.length hP
    simp only [window]
    exact List.take_of_length_le (by omega)
  have hsums : (partSums (compareMultipartWith sha256 decodeString P partsDetails
      overallChecksum (.ok ⟨bytes, none⟩)).out).getLast?
        = some (sha256 (bytes.drop (bytes.length / P * P))) := by
    rw [h1, partSums_append, (hfin _).1, List.append_nil, h4, List.range_succ,
      List.map_append, List.map_singleton, List.getLast?_concat, hlast]
  refine ⟨partIndexAt_end P hP bytes.length, ?_, ?_, hsums, hdrop, ?_⟩
  · rw [h1, partNumbers_append, (hfin _).2, List.append_nil, h5]
  · rw [h1, partNumbers_append, (hfin _).2, List.append_nil, h5]
    simp
  · intro h0
    rw [h0] at hdrop
    rw [hsums, List.length_eq_zero.mp hdrop]

/-- Witness of C16: four bytes, part size 2, and the three-entry parts list of Scenario A:
three part lines, the last over no bytes. -/
theorem C16_eof_iteration_prints_part_witness :
    partIndexAt 2 (([1, 2, 3, 4] : List UInt8).length + 1) true
      = ((([1, 2, 3, 4] : List UInt8).length / 2 : Nat) : Int) ∧
    partNumbers (runWith 2 scenarioAParts scenarioAOverall (.ok ⟨[1, 2, 3, 4], none⟩)).out
      = (List.range (([1, 2, 3, 4] : List UInt8).length / 2 + 1)).map
          (fun (k : Nat) => (k : Int) + 1) ∧
    (partNumbers (runWith 2 scenarioAParts scenarioAOverall
        (.ok ⟨[1, 2, 3, 4], none⟩)).out).length = ([1, 2, 3, 4] : List UInt8).length / 2 + 1 ∧
    (partSums (runWith 2 scenarioAParts scenarioAOverall
        (.ok ⟨[1, 2, 3, 4], none⟩)).out).getLast?
      = some (Sha256.sum256 (([1, 2, 3, 4] : List UInt8).drop
          (([1, 2, 3, 4] : List UInt8).length / 2 * 2))) ∧
    (([1, 2, 3, 4] : List UInt8).drop (([1, 2, 3, 4] : List UInt8).length / 2 * 2)).length
      = ([1, 2, 3, 4] : List UInt8).length % 2 ∧
    (partSums (runWith 2 scenarioAParts scenarioAOverall
        (.ok ⟨[1, 2, 3, 4], none⟩)).out).getLast? = some (Sha256.sum256 []) :=
  ⟨(C16_eof_iteration_prints_part Sha256.sum256 Base64.decodeString 2 scenarioAParts
      scenarioAOverall [1, 2, 3, 4] (by decide) (by decide)).1,
    (C16_eof_iteration_prints_part Sha256.sum256 Base64.decodeString 2 scenarioAParts
      scenarioAOverall [1, 2, 3, 4] (by decide) (by decide)).2.1,
    (C16_eof_iteration_prints_part Sha256.sum256 Base64.decodeString 2 scenarioAParts
      scenarioAOverall [1, 2, 3, 4] (by decide) (by decide)).2.2.1,
    (C16_eof_iteration_prints_part Sha256.sum256 Base64.decodeString 2 scenarioAParts
      scenarioAOverall [1, 2, 3, 4] (by decide) (by decide)).2.2.2.1,
    (C16_eof_iteration_prints_part Sha256.sum256 Base64.decodeString 2 scenarioAParts
      scenarioAOverall [1, 2, 3, 4] (by decide) (by decide)).2.2.2.2.1,
    (C16_eof_iteration_prints_part Sha256.sum256 Base64.decodeString 2 scenarioAParts
      scenarioAOverall [1, 2, 3, 4] (by decide) (by decide)).2.2.2.2.2 (by decide)⟩

/-- C17: the zero-based part index computed at lines 100-103 is never negative and never
above `n / P` for a file of `n` bytes: at a part boundary `count` it is `count / P - 1`, below
`n / P`; at the end of the stream it is `n / P`; and at an end of stream with `count < P` it
is 0, not -1.  So when the parts list has at least `n / P + 1` entries, each with a checksum,
no access `partsDetails[partIndex]` is out of range, and the only panic left is the
dereference of a nil whole-object checksum. -/
theorem C17_part_index_in_range (P : Nat) (partsDetails : List ObjectPart)
    (overallChecksum : Option String) (f : LocalFile) (hP : 0 < P)
    (hlen : f.bytes.length / P + 1 ≤ partsDetails.length)
    (hsum : ∀ k, k ≤ f.bytes.length / P → partHasChecksum partsDetails k = true) :
    (∀ count, 0 < count → count ≤ f.bytes.length → count % P = 0 →
      0 ≤ partIndexAt P count false ∧
        partIndexAt P count false < ((f.bytes.length / P : Nat) : Int)) ∧
    partIndexAt P (f.bytes.length + 1) true = ((f.bytes.length / P : Nat) : Int) ∧
    (∀ count, 0 < count → count < P → partIndexAt P count true = 0) ∧
    (compareMultipartWith sha256 decodeString P partsDetails overallChecksum (.ok f)).ret
      ≠ .panic .indexOutOfRange ∧
    (∀ p, (compareMultipartWith sha256 decodeString P partsDetails overallChecksum (.ok f)).ret
      = .panic p → p = .nilDereference ∧ overallChecksum = none) := by
  have hwin : windowsReached P f ≤ f.bytes.length / P + 1 := by
    unfold windowsReached
    cases f.failure <;> simp
  have hpanic : ∀ p,
      (compareMultipartWith sha256 decodeString P partsDetails overallChecksum (.ok f)).ret
        = .panic p → p = .nilDereference ∧ overallChecksum = none := by
    intro p hp
    rw [compare_eq_runParts sha256 decodeString P hP partsDetails overallChecksum f] at hp
    rcases runParts_ret_panic sha256 decodeString partsDetails _ p (windowsOf P f) 0 [] hp with
      ⟨i, hi, h1⟩ | ⟨app, h2⟩
    · rw [windowsOf_length] at hi
      rw [Nat.zero_add] at h1
      rcases h1 with ⟨h1, _⟩ | ⟨part, h1, h2, _⟩
      · omega
      · have g := hsum i (by omega)
        simp [partHasChecksum, h1, h2] at g
    · obtain ⟨g1, g2⟩ := endOf_ret_panic sha256 decodeString overallChecksum f.failure _ app p h2
      exact ⟨g2, g1⟩
  refine ⟨?_, partIndexAt_end P hP f.bytes.length, ?_, ?_, hpanic⟩
  · intro count hc hle hmod
    rw [partIndexAt_boundary P count hP hmod hc false]
    have h1 : 1 ≤ count / P := by
      rcases Nat.dvd_of_mod_eq_zero hmod with ⟨c, rfl⟩
      rw [Nat.mul_div_cancel_left _ hP]
      rcases c with _ | c
      · simp at hc
      · omega
    have h2 : count / P ≤ f.bytes.length / P := Nat.div_le_div_right hle
    constructor
    · exact Int.ofNat_nonneg _
    · exact_mod_cast (by omega : count / P - 1 < f.bytes.length / P)
  · intro count hc hlt
    have hne : count % P ≠ 0 := by rw [Nat.mod_eq_of_lt hlt]; omega
    rw [partIndexAt_eof P count hne, Nat.div_eq_of_lt hlt]
    rfl
  · intro h
    have := (hpanic _ h).1
    cases this

/-- Witness of C17: Scenario A. -/
theorem C17_part_index_in_range_witness :
    partIndexAt 2 (scenarioAFile.bytes.length + 1) true
      = ((scenarioAFile.bytes.length / 2 : Nat) : Int) ∧
    partIndexAt 2 1 true = 0 ∧
    (runWith 2 scenarioAParts scenarioAOverall (.ok scenarioAFile)).ret
      ≠ .panic .indexOutOfRange :=
  ⟨(C17_part_index_in_range Sha256.sum256 Base64.decodeString 2 scenarioAParts
      scenarioAOverall scenarioAFile (by decide) (by decide) (by decide)).2.1,
    (C17_part_index_in_range Sha256.sum256 Base64.decodeString 2 scenarioAParts
      scenarioAOverall scenarioAFile (by decide) (by decide) (by decide)).2.2.1 1
      (by decide) (by decide),
    (C17_part_index_in_range Sha256.sum256 Base64.decodeString 2 scenarioAParts
      scenarioAOverall scenarioAFile (by decide) (by decide) (by decide)).2.2.2.1⟩

end More

end S3HashChecker
